import Mathlib

/-!
Verification of the Fortran-namelist formatter (src/nml_formatter.py).

The program is a line-oriented text transformation.  We embed it shallowly:
a Python string becomes a list of characters, each source function becomes a
Lean function of the same name, and the one Python exception (ValueError in
parse_key_val_pair) becomes an Option.  File input/output is elided: the
embedded format_nml takes the file content directly, exactly as the source
reads it with read_text before any processing.

Modelling notes on Python primitives, each used at the exact call sites of
the source:
  * str.splitlines is modelled for the terminators of the ASCII range that
    the regular-expression class backslash-s also contains (LF, CR, CRLF,
    VT, FF), so that line splitting and whitespace agree as they do in
    Python for ASCII text.
  * re.match with the pattern backslash-s star, comma question mark,
    backslash-s star, group of one-or-more characters that are neither
    whitespace nor the equals sign, backslash-s star, one-or-more equals
    signs, group of dot-star -- is compiled to the deterministic matcher
    matchKV below.  Backtracking of the regex engine matters in exactly one
    place: when taking the optional comma leaves no key (as in the line
    comma-equals-one), the engine retries with the comma as part of the
    key.  matchKV mirrors this with an orElse.  All other greedy choices
    are forced: the key class excludes whitespace, so a shortened key is
    followed by a key character and never by an equals sign.
  * str.replace is non-overlapping left-to-right replacement (pyReplace).
  * str.split on a comma keeps empty pieces, str.strip with no argument
    removes the whitespace characters above, str.rstrip with an explicit
    set removes exactly that set, str.lower is modelled on ASCII letters.
-/

abbrev Str := List Char

/-- The characters of a Lean string literal, used to write concrete inputs. -/
def chars (s : String) : Str := s.toList

/-- Line terminators recognised by the model of str.splitlines. -/
def lineSep (c : Char) : Bool :=
  c == '\n' || c == '\r' || c == '\x0b' || c == '\x0c'

/-- Whitespace of the Python regex class backslash-s restricted to ASCII:
space, tab, and the line terminators. -/
def pyWs (c : Char) : Bool :=
  c == ' ' || c == '\t' || lineSep c

/-- Characters allowed in a key by the regex: neither whitespace nor '='. -/
def keyChar (c : Char) : Bool :=
  !pyWs c && c != '='

/-- Right strip of the characters satisfying p (models str.rstrip). -/
def rstripP (p : Char → Bool) (l : Str) : Str :=
  (l.reverse.dropWhile p).reverse

/-- str.strip with no argument: remove whitespace at both ends. -/
def stripWs (l : Str) : Str :=
  rstripP pyWs (l.dropWhile pyWs)

/-- str.strip with an explicit character set, given as a predicate. -/
def stripP (p : Char → Bool) (l : Str) : Str :=
  rstripP p (l.dropWhile p)

/-- str.splitlines, worker: acc holds the current line reversed. -/
def splitlinesGo : Str → Str → List Str
  | acc, [] => if acc.isEmpty then [] else [acc.reverse]
  | acc, '\r' :: '\n' :: rest => acc.reverse :: splitlinesGo [] rest
  | acc, c :: rest =>
      if lineSep c then acc.reverse :: splitlinesGo [] rest
      else splitlinesGo (c :: acc) rest

/-- str.splitlines: split at terminators, no trailing empty piece. -/
def splitlines (s : Str) : List Str := splitlinesGo [] s

/-- str.split on a single character: all pieces, empty pieces kept. -/
def splitOnChar (c : Char) : Str → List Str
  | [] => [[]]
  | x :: xs =>
      if x == c then [] :: splitOnChar c xs
      else
        match splitOnChar c xs with
        | h :: t => (x :: h) :: t
        | [] => [[x]]

/-- str.join: concatenate the pieces with the separator between them. -/
def joinSep (sep : Str) : List Str → Str
  | [] => []
  | [x] => x
  | x :: xs => x ++ sep ++ joinSep sep xs

/-- Worker of pyReplace: scan s once; at each position, if the nonempty
pattern starts there, copy the replacement and skip the pattern, else copy
one character.  The fuel argument only makes the recursion structural; a
step always consumes at least one character, so fuel equal to the length
of s (as passed by pyReplace) is never exhausted. -/
def pyReplaceF (pat rep : Str) : Nat → Str → Str
  | _, [] => []
  | 0, s => s
  | fuel + 1, c :: cs =>
      if pat.isPrefixOf (c :: cs) then
        rep ++ pyReplaceF pat rep fuel ((c :: cs).drop pat.length)
      else c :: pyReplaceF pat rep fuel cs

/-- str.replace: non-overlapping left-to-right replacement of pat by rep
(an empty pattern is never passed by the source; Python would interleave
the replacement everywhere, we return s unchanged). -/
def pyReplace (pat rep : Str) (s : Str) : Str :=
  if pat.isEmpty then s else pyReplaceF pat rep s.length s

/-- Python string-times-int: n copies of a space, empty for n below zero. -/
def spaces (n : Int) : Str := List.replicate n.toNat ' '

/-- str.lower on ASCII letters. -/
def lowerAscii (l : Str) : Str := l.map Char.toLower

/-- Does the list start with the character c (models str.startswith for a
one-character argument)? -/
def headIs (c : Char) (l : Str) : Bool :=
  match l with
  | [] => false
  | x :: _ => x == c

/-- One attempt of the regex tail: a nonempty run of key characters,
optional whitespace, then at least one equals sign; returns the key and
the text after the maximal run of equals signs. -/
def tryKey (u : Str) : Option (Str × Str) :=
  if (u.takeWhile keyChar).isEmpty then none
  else if headIs '=' ((u.dropWhile keyChar).dropWhile pyWs) then
    some (u.takeWhile keyChar,
      ((u.dropWhile keyChar).dropWhile pyWs).dropWhile (fun c => c == '='))
  else none

/-- The whole regex of parse_key_val_pair, compiled with its backtracking:
skip leading whitespace; if a comma follows, first try the key after the
comma (and the whitespace behind it), and on failure retry with the comma
as the first key character. -/
def matchKV (vp : Str) : Option (Str × Str) :=
  match vp.dropWhile pyWs with
  | ',' :: t => (tryKey (t.dropWhile pyWs)).orElse (fun _ => tryKey (vp.dropWhile pyWs))
  | _ => tryKey (vp.dropWhile pyWs)

/-- Trailing-comma-space-tab set used on the raw value (str.rstrip set). -/
def commaSpTab (c : Char) : Bool := c == ',' || c == ' ' || c == '\t'

/-- parse_key_val_pair: split the line at the first exclamation mark into a
value part and a comment, match the value part against the regex, and
return key, cleaned value and re-synthesised comment; none models the
ValueError raised when the regex does not match. -/
def parse_key_val_pair (line : Str) : Option (Str × Str × Str) :=
  match matchKV (if line.contains '!' then line.takeWhile (fun c => c != '!') else line) with
  | some (key, rawValue) =>
      some (key, stripWs (rstripP commaSpTab rawValue),
        if line.contains '!' then
          chars " ! " ++ stripWs ((line.dropWhile (fun c => c != '!')).tail)
        else [])
  | none => none

/-- find_longest_key: scan every line, skip lines that do not parse, and
keep the greatest key length seen, starting from -1. -/
def find_longest_key (content : Str) : Int :=
  (splitlines content).foldl
    (fun longest line =>
      match parse_key_val_pair line with
      | some (key, _, _) => if (key.length : Int) > longest then key.length else longest
      | none => longest)
    (-1)

/-- format_line: parse the line, normalise the value (comma spacing, boolean
literals, quotes), and rebuild it with the requested indentation, alignment
and trailing pieces; none propagates the parse failure. -/
def format_line (line : Str) (align_eq_to block_indent : Int)
    (trailing_comma keep_comments : Bool) : Option Str :=
  match parse_key_val_pair line with
  | none => none
  | some (key, value0, comment) =>
    let value1 :=
      if value0.contains ',' then
        joinSep (chars ", ") ((splitOnChar ',' value0).map stripWs)
      else value0
    let value2 := pyReplace (chars ".t.") (chars ".true.") value1
    let value3 := pyReplace (chars ".TRUE.") (chars ".true.") value2
    let value4 := pyReplace (chars ".f.") (chars ".false.") value3
    let value5 := pyReplace (chars ".FALSE.") (chars ".false.") value4
    let value := value5.map (fun c => if c == '"' then '\'' else c)
    let eq_offset := max (align_eq_to - key.length - 1) 1
    let out_comment := if keep_comments then comment else []
    let out_comma : Str := if trailing_comma then [','] else []
    some (spaces block_indent ++ key ++ spaces eq_offset
          ++ chars " = " ++ value ++ out_comma ++ out_comment)

/-- The five emission branches of the format_nml loop, used to tag output
lines with the branch that produced them. -/
inductive LKind where
  | header | close | sep | blank | comment | assign
deriving DecidableEq, Repr

/-- The per-line preprocessing of the format_nml loop: strip newline
characters at the ends, then right-strip whitespace. -/
def procLine (raw : Str) : Str :=
  rstripP pyWs (stripP (fun c => c == '\n') raw)

/-- The body of the format_nml loop for one input line: classification into
the five branches, the new block flag, and the emitted lines (tagged with
their branch); none propagates a parse failure of an assignment line. -/
def processLine (align_eq_to block_indent : Int)
    (trailing_comma keep_comments keep_whitelines : Bool)
    (in_block : Bool) (raw : Str) : Option (Bool × List (LKind × Str)) :=
  let line := procLine raw
  if headIs '&' (stripWs line) then
    some (true, [(.header, lowerAscii (stripWs line))])
  else if stripWs line = ['/'] then
    some (false, [(.close, ['/']), (.sep, [])])
  else if line = [] then
    some (in_block, if keep_whitelines && in_block then [(.blank, [])] else [])
  else if headIs '!' (stripWs line) then
    some (in_block,
      if keep_comments then
        [(.comment,
          (if in_block then spaces block_indent else [])
            ++ chars "! " ++ stripWs (stripWs line).tail)]
      else [])
  else
    (format_line line align_eq_to block_indent trailing_comma keep_comments).map
      (fun fl => (in_block, [(.assign, fl)]))

/-- The format_nml loop over a list of raw lines, threading the block flag
and collecting the emitted lines in order. -/
def nmlRun (align_eq_to block_indent : Int)
    (trailing_comma keep_comments keep_whitelines : Bool) :
    Bool → List Str → Option (Bool × List (LKind × Str))
  | ib, [] => some (ib, [])
  | ib, l :: rest => do
      let (ib1, out) ←
        processLine align_eq_to block_indent trailing_comma keep_comments
          keep_whitelines ib l
      let (ibf, tailOut) ←
        nmlRun align_eq_to block_indent trailing_comma keep_comments
          keep_whitelines ib1 rest
      pure (ibf, out ++ tailOut)

/-- format_nml down to the list of emitted lines, with branch tags. -/
def format_nml_tagged (content : Str) (eq_offset block_indent : Int)
    (trailing_comma keep_comments keep_whitelines : Bool) :
    Option (List (LKind × Str)) :=
  (nmlRun (find_longest_key content + eq_offset) block_indent trailing_comma
      keep_comments keep_whitelines false (splitlines content)).map Prod.snd

/-- format_nml down to the list of emitted lines. -/
def format_nml_lines (content : Str) (eq_offset block_indent : Int)
    (trailing_comma keep_comments keep_whitelines : Bool) : Option (List Str) :=
  (format_nml_tagged content eq_offset block_indent trailing_comma
      keep_comments keep_whitelines).map (List.map Prod.snd)

/-- format_nml: the whole transformation from file content to the formatted
text, the final newline-join included.  File read and write are elided. -/
def format_nml (content : Str) (eq_offset block_indent : Int)
    (trailing_comma keep_comments keep_whitelines : Bool) : Option Str :=
  (format_nml_lines content eq_offset block_indent trailing_comma keep_comments
      keep_whitelines).map (joinSep ['\n'])

/-! ## Spec-side definitions

These definitions restate parts of the specification in the spec's own
terms, to be compared with the embedded source functions above. -/

/-- Index of the first equals sign of a line (the column of the sign). -/
def eqCol (l : Str) : Nat := (l.takeWhile (fun c => c != '=')).length

/-- Key lengths of the lines accepted by the parser, in document order. -/
def parsedKeyLens (content : Str) : List Int :=
  (splitlines content).filterMap
    (fun l => (parse_key_val_pair l).map (fun t => (t.1.length : Int)))

/-- The value-list normalisation step of format_line as the spec states it:
split on commas, strip each element, rejoin with comma-space. -/
def commaNormalize (v : Str) : Str :=
  if v.contains ',' then joinSep (chars ", ") ((splitOnChar ',' v).map stripWs)
  else v

/-- The boolean and quote normalisation of format_line as the spec states
it: replace occurrences of the four boolean spellings, then turn double
quotes into single quotes. -/
def boolQuoteNormalize (v : Str) : Str :=
  (pyReplace (chars ".FALSE.") (chars ".false.")
    (pyReplace (chars ".f.") (chars ".false.")
      (pyReplace (chars ".TRUE.") (chars ".true.")
        (pyReplace (chars ".t.") (chars ".true.") v)))).map
    (fun c => if c == '"' then '\'' else c)

/-- A run of whitespace characters. -/
def WsRun (w : Str) : Prop := ∀ x ∈ w, pyWs x = true

/-- The assignment pattern exactly as the claim states it: optional
whitespace, an optional leading comma, a nonempty key of characters that
are neither whitespace nor equals signs, then one or more equals signs
immediately (no whitespace slots around the key beyond the leading one). -/
def ClaimMatch (vp : Str) : Prop :=
  ∃ w1 copt k eqs rest, vp = w1 ++ copt ++ k ++ eqs ++ rest ∧
    WsRun w1 ∧ (copt = [] ∨ copt = [',']) ∧
    k ≠ [] ∧ (∀ x ∈ k, keyChar x = true) ∧
    eqs ≠ [] ∧ (∀ x ∈ eqs, x = '=')

/-- The assignment pattern with the whitespace slots the regex of the
source actually has: optional whitespace, optional leading comma, optional
whitespace, a nonempty key of non-whitespace non-equals characters,
optional whitespace, then one or more equals signs. -/
def SpecMatch (vp : Str) : Prop :=
  ∃ w1 copt w2 k w3 eqs rest, vp = w1 ++ copt ++ w2 ++ k ++ w3 ++ eqs ++ rest ∧
    WsRun w1 ∧ (copt = [] ∨ copt = [',']) ∧ WsRun w2 ∧
    k ≠ [] ∧ (∀ x ∈ k, keyChar x = true) ∧ WsRun w3 ∧
    eqs ≠ [] ∧ (∀ x ∈ eqs, x = '=')

/-- The part of a line before its first exclamation mark (the whole line
when there is none), as the claim describes the comment split. -/
def bangPre (line : Str) : Str :=
  if line.contains '!' then line.takeWhile (fun c => c != '!') else line

/-- The re-synthesised comment the claim describes: the marker, then the
whitespace-trimmed text after the first exclamation mark; empty when the
line has none. -/
def bangComment (line : Str) : Str :=
  if line.contains '!' then
    chars " ! " ++ stripWs ((line.dropWhile (fun c => c != '!')).tail)
  else []

/-- The contribution of one line to the key scanner: the length of its
parsed key, or nothing when the line does not parse. -/
def lineKeyLen (l : Str) : Option Int :=
  (parse_key_val_pair l).map (fun t => (t.1.length : Int))

/-- Per-line stability check for the idempotence analysis: a line that the
loop classifies as a block header, a block close, a blank line or a
full-line comment is always stable; an assignment line is stable when the
line emitted for it is itself classified as an assignment by the loop (in
either block state) and formats back to itself.  Lines violating this
check (keys picked after a leading comma, boolean-replacement cascades,
values whose normalisation is not a fixed point) are exactly the
assignment lines on which reformatting can change the text again. -/
def assignStable (a bi : Int) (tc kc kw : Bool) (raw : Str) : Bool :=
  if headIs '&' (stripWs (procLine raw)) then true
  else if stripWs (procLine raw) = ['/'] then true
  else if procLine raw = [] then true
  else if headIs '!' (stripWs (procLine raw)) then true
  else
    match format_line (procLine raw) a bi tc kc with
    | none => true
    | some fl =>
        decide (processLine a bi tc kc kw false fl =
          some (false, [(.assign, fl)])) &&
        decide (processLine a bi tc kc kw true fl =
          some (true, [(.assign, fl)]))

/-! ## Basic list lemmas -/

lemma takeWhile_all {p : Char → Bool} {l : Str} (h : ∀ x ∈ l, p x = true) :
    l.takeWhile p = l := by
  induction l with
  | nil => rfl
  | cons a t ih =>
      simp [List.takeWhile_cons, h a (by simp),
        ih (fun x hx => h x (by simp [hx]))]

lemma dropWhile_all {p : Char → Bool} {l : Str} (h : ∀ x ∈ l, p x = true) :
    l.dropWhile p = [] := by
  induction l with
  | nil => rfl
  | cons a t ih =>
      simp only [List.dropWhile_cons, h a (by simp)]
      exact ih (fun x hx => h x (by simp [hx]))

lemma takeWhile_append_all {p : Char → Bool} {a b : Str} (h : ∀ x ∈ a, p x = true) :
    (a ++ b).takeWhile p = a ++ b.takeWhile p := by
  induction a with
  | nil => simp
  | cons x t ih =>
      simp only [List.cons_append, List.takeWhile_cons, h x (by simp)]
      simp [ih (fun y hy => h y (by simp [hy]))]

lemma dropWhile_append_all {p : Char → Bool} {a b : Str} (h : ∀ x ∈ a, p x = true) :
    (a ++ b).dropWhile p = b.dropWhile p := by
  induction a with
  | nil => simp
  | cons x t ih =>
      simp only [List.cons_append, List.dropWhile_cons, h x (by simp)]
      exact ih (fun y hy => h y (by simp [hy]))

lemma takeWhile_append_stop {p : Char → Bool} {a : Str} {b : Char} {r : Str}
    (h : ∀ x ∈ a, p x = true) (hb : p b = false) :
    (a ++ b :: r).takeWhile p = a := by
  rw [takeWhile_append_all h]
  simp [List.takeWhile_cons, hb]

lemma dropWhile_append_stop {p : Char → Bool} {a : Str} {b : Char} {r : Str}
    (h : ∀ x ∈ a, p x = true) (hb : p b = false) :
    (a ++ b :: r).dropWhile p = b :: r := by
  rw [dropWhile_append_all h]
  simp [List.dropWhile_cons, hb]

lemma rstripP_append_all {p : Char → Bool} {l w : Str} (h : ∀ x ∈ w, p x = true) :
    rstripP p (l ++ w) = rstripP p l := by
  unfold rstripP
  rw [List.reverse_append, dropWhile_append_all (by simp [List.mem_reverse]; exact fun x hx => h x hx)]

lemma rstripP_no_strip {p : Char → Bool} {l : Str} {b : Char} (hb : p b = false) :
    rstripP p (l ++ [b]) = l ++ [b] := by
  unfold rstripP
  simp [List.dropWhile_cons, hb]

lemma rstripP_nil (p : Char → Bool) : rstripP p [] = [] := rfl

/-- Splitting a list into its right-stripped part and the stripped suffix. -/
lemma rstripP_decomp (p : Char → Bool) (l : Str) :
    l = rstripP p l ++ (l.reverse.takeWhile p).reverse ∧
      (∀ x ∈ (l.reverse.takeWhile p).reverse, p x = true) := by
  constructor
  · unfold rstripP
    rw [← List.reverse_append, List.takeWhile_append_dropWhile]
    simp
  · intro x hx
    rw [List.mem_reverse] at hx
    exact List.mem_takeWhile_imp hx

/-! ## First facts about the branches of the format_nml loop -/

/-- Claim C5: a blank input line (the per-line preprocessing leaves nothing)
is kept, as a blank output line, exactly when whiteline keeping is enabled
and the loop is inside a block; otherwise it is dropped.  The block flag is
returned unchanged either way, and no other configuration option matters. -/
theorem blank_line_policy (a bi : Int) (tc kc kw : Bool) (ib : Bool) (raw : Str)
    (hblank : procLine raw = []) :
    processLine a bi tc kc kw ib raw =
      some (ib, if kw && ib then [(LKind.blank, [])] else []) := by
  unfold processLine
  rw [hblank]
  simp [stripWs, rstripP, headIs]

/-- Witness for C5: a whitespace-only line outside a block is dropped even
with whiteline keeping enabled. -/
theorem blank_line_policy_witness :
    processLine 6 2 true true true false (chars "  ") = some (false, []) := by
  rw [blank_line_policy 6 2 true true true false (chars "  ") (by decide)]
  rfl

/-- Claim C7: a line whose trimmed content is exactly the block-closing
slash makes the loop leave block state and emit the slash followed by one
blank separator line, for every configuration and prior block state. -/
theorem close_line_unconditional (a bi : Int) (tc kc kw : Bool) (ib : Bool) (raw : Str)
    (hclose : stripWs (procLine raw) = ['/']) :
    processLine a bi tc kc kw ib raw =
      some (false, [(LKind.close, ['/']), (LKind.sep, [])]) := by
  simp only [processLine]
  rw [hclose]
  simp [headIs]

/-- Witness for C7: a padded slash line, inside a block, with whiteline
keeping disabled, still emits the slash and one blank separator. -/
theorem close_line_unconditional_witness :
    processLine 6 2 false false false true (chars " / ") =
      some (false, [(LKind.close, ['/']), (LKind.sep, [])]) := by
  rw [close_line_unconditional 6 2 false false false true (chars " / ") (by decide)]

/-- Unfolding of format_line on a successfully parsed line, phrased with
the spec-side normalisation functions. -/
lemma format_line_eq (line : Str) (a bi : Int) (tc kc : Bool)
    (k v c : Str) (h : parse_key_val_pair line = some (k, v, c)) :
    format_line line a bi tc kc =
      some (spaces bi ++ k ++ spaces (max (a - k.length - 1) 1) ++ chars " = "
        ++ boolQuoteNormalize (commaNormalize v)
        ++ (if tc then [','] else []) ++ (if kc then c else [])) := by
  simp [format_line, h, commaNormalize, boolQuoteNormalize]

/-- Claim C6: on a parsed line, format_line emits the value with comma-list
spacing normalised, every replace-style occurrence of the four boolean
spellings rewritten to their lowercase dotted forms, and every double quote
turned into a single quote -- substring replacements, applied to the value
only, between the aligned equals sign and the optional trailing pieces. -/
theorem format_line_value_normalization (line : Str) (a bi : Int) (tc kc : Bool)
    (k v c : Str) (h : parse_key_val_pair line = some (k, v, c)) :
    format_line line a bi tc kc =
      some (spaces bi ++ k ++ spaces (max (a - k.length - 1) 1) ++ chars " = "
        ++ boolQuoteNormalize (commaNormalize v)
        ++ (if tc then [','] else []) ++ (if kc then c else [])) :=
  format_line_eq line a bi tc kc k v c h

/-- Witness for C6: a value containing a dotted-t occurrence inside a
longer token, and a double quote, is rewritten by substring replacement. -/
theorem format_line_value_normalization_witness :
    format_line (chars "b = .t.x" ++ ['"']) 8 2 true true =
      some (chars "  b       = .true.x" ++ ['\''] ++ [',']) := by
  rw [format_line_value_normalization (chars "b = .t.x" ++ ['"']) 8 2 true true
        (chars "b") (chars ".t.x" ++ ['"']) [] (by decide)]
  decide

/-- Claim C9: an assignment-classified line is emitted with exactly the
block-indent space prefix no matter what the block flag is (the flag is
passed through unchanged and never consulted), while a full-line comment
is indented if and only if the flag says inside a block. -/
theorem assign_indent_unconditional (a bi : Int) (tc kc kw : Bool)
    (raw : Str) (k v c : Str)
    (h1 : headIs '&' (stripWs (procLine raw)) = false)
    (h2 : stripWs (procLine raw) ≠ ['/'])
    (h3 : procLine raw ≠ [])
    (h4 : headIs '!' (stripWs (procLine raw)) = false)
    (h5 : parse_key_val_pair (procLine raw) = some (k, v, c)) :
    (∀ ib, processLine a bi tc kc kw ib raw =
      some (ib, [(LKind.assign,
        spaces bi ++ k ++ spaces (max (a - k.length - 1) 1) ++ chars " = "
          ++ boolQuoteNormalize (commaNormalize v)
          ++ (if tc then [','] else []) ++ (if kc then c else []))]))
    ∧ ∀ raw2, headIs '&' (stripWs (procLine raw2)) = false →
        stripWs (procLine raw2) ≠ ['/'] → procLine raw2 ≠ [] →
        headIs '!' (stripWs (procLine raw2)) = true →
        ∀ ib, processLine a bi tc kc kw ib raw2 =
          some (ib,
            if kc then
              [(LKind.comment,
                (if ib then spaces bi else []) ++ chars "! "
                  ++ stripWs (stripWs (procLine raw2)).tail)]
            else []) := by
  constructor
  · intro ib
    simp only [processLine]
    rw [format_line_eq (procLine raw) a bi tc kc k v c h5]
    simp [h1, h2, h3, h4]
  · intro raw2 g1 g2 g3 g4 ib
    simp only [processLine]
    simp [g1, g2, g3, g4]

/-- Witness for C9: an assignment line outside any block (flag false) still
receives the two-space block indent, and a comment line outside a block
receives none. -/
theorem assign_indent_unconditional_witness :
    processLine 8 2 true true true false (chars "x = 1") =
      some (false, [(LKind.assign, chars "  x       = 1,")]) ∧
    processLine 8 2 true true true false (chars "! note") =
      some (false, [(LKind.comment, chars "! note")]) := by
  have h := assign_indent_unconditional 8 2 true true true (chars "x = 1")
    (chars "x") (chars "1") [] (by decide) (by decide) (by decide) (by decide)
    (by decide)
  constructor
  · rw [h.1 false]; decide
  · rw [h.2 (chars "! note") (by decide) (by decide) (by decide) (by decide) false]
    decide

/-! ## Properties of the matcher -/

lemma mem_rstripP {p : Char → Bool} {l : Str} {x : Char} (h : x ∈ rstripP p l) :
    x ∈ l := by
  unfold rstripP at h
  rw [List.mem_reverse] at h
  have := (List.dropWhile_suffix p).subset h
  simpa using this

lemma mem_stripWs {l : Str} {x : Char} (h : x ∈ stripWs l) : x ∈ l := by
  unfold stripWs at h
  exact (List.dropWhile_suffix pyWs).subset (mem_rstripP h)

lemma orElse_step {α : Type} (a : Option α) (f : Unit → Option α) :
    a.orElse f = match a with | some x => some x | none => f () := by
  cases a <;> rfl

lemma tryKey_some {u k r : Str} (h : tryKey u = some (k, r)) :
    k = u.takeWhile keyChar ∧ k ≠ [] ∧
    headIs '=' ((u.dropWhile keyChar).dropWhile pyWs) = true ∧
    r = ((u.dropWhile keyChar).dropWhile pyWs).dropWhile (fun c => c == '=') := by
  unfold tryKey at h
  by_cases h1 : (u.takeWhile keyChar).isEmpty
  · simp [h1] at h
  · by_cases h2 : headIs '=' ((u.dropWhile keyChar).dropWhile pyWs)
    · simp only [h1, h2, if_true, if_false, Bool.false_eq_true] at h
      obtain ⟨rfl, rfl⟩ := h
      exact ⟨rfl, by simpa [List.isEmpty_iff] using h1, h2, rfl⟩
    · simp [h1, h2] at h

lemma matchKV_some_props {vp k r : Str} (h : matchKV vp = some (k, r)) :
    (k ≠ [] ∧ ∀ x ∈ k, keyChar x = true) ∧ (∀ x ∈ r, x ∈ vp) := by
  have base : ∀ u, tryKey u = some (k, r) → (∀ x ∈ u, x ∈ vp) →
      (k ≠ [] ∧ ∀ x ∈ k, keyChar x = true) ∧ (∀ x ∈ r, x ∈ vp) := by
    intro u hu hsub
    obtain ⟨hk, hne, _, hr⟩ := tryKey_some hu
    refine ⟨⟨hne, ?_⟩, ?_⟩
    · intro x hx
      rw [hk] at hx
      exact List.mem_takeWhile_imp hx
    · intro x hx
      rw [hr] at hx
      exact hsub x ((List.dropWhile_suffix keyChar).subset
        ((List.dropWhile_suffix pyWs).subset
          ((List.dropWhile_suffix (fun c => c == '=')).subset hx)))
  have hsubs : ∀ x ∈ vp.dropWhile pyWs, x ∈ vp :=
    fun x hx => (List.dropWhile_suffix pyWs).subset hx
  unfold matchKV at h
  split at h
  next t heq =>
    rw [orElse_step] at h
    cases ho : tryKey (t.dropWhile pyWs) with
    | some p =>
        rw [ho] at h
        simp only [Option.some.injEq] at h
        subst h
        refine base _ ho ?_
        intro x hx
        have : x ∈ t := (List.dropWhile_suffix pyWs).subset hx
        exact hsubs x (heq ▸ List.mem_cons_of_mem ',' this)
    | none =>
        rw [ho] at h
        exact base _ h hsubs
  next =>
    exact base _ h hsubs

lemma parse_some_props {line k v c : Str}
    (h : parse_key_val_pair line = some (k, v, c)) :
    (k ≠ [] ∧ ∀ x ∈ k, keyChar x = true) ∧
    (∀ x ∈ v, x ∈ bangPre line) ∧ c = bangComment line := by
  unfold parse_key_val_pair at h
  split at h
  next key rawValue heq =>
    simp only [Option.some.injEq, Prod.mk.injEq] at h
    obtain ⟨rfl, rfl, rfl⟩ := h
    obtain ⟨hk, hsub⟩ := matchKV_some_props heq
    refine ⟨hk, ?_, ?_⟩
    · intro x hx
      have hx2 := hsub x (mem_rstripP (mem_stripWs hx))
      unfold bangPre
      by_cases hb : line.contains '!' <;> simp only [hb, if_true, if_false] at hx2 ⊢ <;>
        simpa using hx2
    · unfold bangComment
      by_cases hb : line.contains '!' <;> simp [hb]
  next => exact absurd h (by simp)

lemma spaces_succ {n : Int} (h : 1 ≤ n) : spaces n = ' ' :: spaces (n - 1) := by
  unfold spaces
  have : n.toNat = (n - 1).toNat + 1 := by omega
  rw [this, List.replicate_succ]

/-- Counterexample to claim C3: an uppercase key is emitted unchanged; the
output contains the original key and not its lowercase form. -/
theorem key_not_lowercased_cex :
    format_line (chars "X = 1") 6 2 true true = some (chars "  X     = 1,") ∧
    (chars "  X     = 1,").contains 'X' = true ∧
    lowerAscii (chars "X") = chars "x" ∧
    (chars "  X     = 1,").contains 'x' = false := by
  refine ⟨?_, by decide, by decide, by decide⟩
  decide

/-- Claim C3 as amended: the key of a formatted assignment line appears in
the output verbatim, exactly as the parser matched it in the input -- no
case normalisation is applied to keys (only block headers are lowercased). -/
theorem key_case_preserved (line : Str) (a bi : Int) (tc kc : Bool)
    (k v c fl : Str)
    (h : parse_key_val_pair line = some (k, v, c))
    (hf : format_line line a bi tc kc = some fl) :
    (fl.drop (spaces bi).length).takeWhile keyChar = k := by
  rw [format_line_eq line a bi tc kc k v c h] at hf
  obtain rfl := (Option.some_inj.mp hf).symm
  obtain ⟨⟨hne, hkc⟩, -, -⟩ := parse_some_props h
  simp only [List.append_assoc, List.drop_left]
  rw [spaces_succ (by omega : (1:Int) ≤ max (a - k.length - 1) 1)]
  simp only [List.cons_append]
  rw [takeWhile_append_stop hkc (by decide : keyChar ' ' = false)]

/-- Witness for C3 amended: a mixed-case key is reproduced character for
character after the indent. -/
theorem key_case_preserved_witness :
    ((chars "  MiXeD  = 1,").drop (spaces 2).length).takeWhile keyChar =
      chars "MiXeD" := by
  exact key_case_preserved (chars "MiXeD=1") 4 2 true true (chars "MiXeD")
    (chars "1") [] (chars "  MiXeD  = 1,") (by decide) (by decide)

/-- Claim C10: the parser splits at the first exclamation mark before any
quote handling, so the value of a parsed line never contains an
exclamation mark: everything from the first one on, quoted or not, is
moved into the re-synthesised comment. -/
theorem comment_split_before_quotes (line k v c : Str)
    (h : parse_key_val_pair line = some (k, v, c)) :
    v.contains '!' = false ∧
    (line.contains '!' = true →
      c = chars " ! " ++ stripWs ((line.dropWhile (fun x => x != '!')).tail)) ∧
    (line.contains '!' = false → c = []) := by
  obtain ⟨-, hv, hc⟩ := parse_some_props h
  refine ⟨?_, ?_, ?_⟩
  · rw [← Bool.not_eq_true, List.elem_iff]
    intro hmem
    have := hv '!' hmem
    unfold bangPre at this
    by_cases hb : line.contains '!'
    · rw [if_pos hb] at this
      have := List.mem_takeWhile_imp this
      simp at this
    · rw [if_neg hb] at this
      rw [List.elem_iff] at hb
      exact absurd this hb
  · intro hb
    rw [hc]
    unfold bangComment
    rw [if_pos hb]
  · intro hb
    rw [hc]
    unfold bangComment
    rw [if_neg (by rw [hb]; simp)]

/-- Witness for C10: an exclamation mark inside a quoted value is cut out
of the value and lands in the comment. -/
theorem comment_split_before_quotes_witness :
    parse_key_val_pair (chars "name = " ++ ['\''] ++ chars "a !b" ++ ['\'']) =
      some (chars "name", chars "'a", chars " ! b'") ∧
    (chars "'a").contains '!' = false := by
  refine ⟨by decide, ?_⟩
  have := comment_split_before_quotes
    (chars "name = " ++ ['\''] ++ chars "a !b" ++ ['\''])
    (chars "name") (chars "'a") (chars " ! b'") (by decide)
  exact this.1

/-! ## The key scanner -/

lemma foldl_max_init_le (xs : List Int) (a : Int) : a ≤ xs.foldl max a := by
  induction xs generalizing a with
  | nil => simp
  | cons x t ih => exact le_trans (le_max_left a x) (ih (max a x))

lemma foldl_max_le_of_mem {xs : List Int} {x : Int} (hx : x ∈ xs) (a : Int) :
    x ≤ xs.foldl max a := by
  induction xs generalizing a with
  | nil => cases hx
  | cons y t ih =>
      rcases List.mem_cons.mp hx with rfl | hmem
      · exact le_trans (le_max_right a x) (foldl_max_init_le t (max a x))
      · exact ih hmem (max a y)

lemma foldl_max_mem_or (xs : List Int) (a : Int) :
    xs.foldl max a = a ∨ xs.foldl max a ∈ xs := by
  induction xs generalizing a with
  | nil => left; rfl
  | cons y t ih =>
      rcases ih (max a y) with h | h
      · rw [List.foldl_cons, h]
        rcases max_cases a y with ⟨h1, _⟩ | ⟨h1, _⟩
        · left; exact h1
        · right; rw [h1]; exact List.mem_cons_self y t
      · right; exact List.mem_cons_of_mem y h

lemma find_fold_aux (lines : List Str) (a : Int) :
    lines.foldl
      (fun longest line =>
        match parse_key_val_pair line with
        | some (key, _, _) =>
            if (key.length : Int) > longest then key.length else longest
        | none => longest) a =
    (lines.filterMap
      (fun l => (parse_key_val_pair l).map (fun t => (t.1.length : Int)))).foldl
        max a := by
  induction lines generalizing a with
  | nil => rfl
  | cons l t ih =>
      rw [List.foldl_cons, List.filterMap_cons]
      cases hp : parse_key_val_pair l with
      | none => simp only [hp]; simp only [Option.map_none']; exact ih a
      | some p =>
          simp only [hp]
          simp only [Option.map_some']
          rw [List.foldl_cons]
          have : (if (p.1.length : Int) > a then (p.1.length : Int) else a) =
              max a p.1.length := by
            rcases max_cases a (p.1.length : Int) with ⟨h1, h2⟩ | ⟨h1, h2⟩ <;>
              simp [h1] <;> omega
          rw [← this]
          exact ih _

lemma find_longest_key_foldl (content : Str) :
    find_longest_key content = (parsedKeyLens content).foldl max (-1) := by
  unfold find_longest_key parsedKeyLens
  exact find_fold_aux (splitlines content) (-1)

/-- Claim C8: the key scanner is total (it is a plain fold, lines that do
not parse are skipped), returns -1 exactly when no line parses, and
otherwise returns the length of a longest parsed key: a value that occurs
among the parsed key lengths and bounds all of them. -/
theorem find_longest_key_spec (content : Str) :
    find_longest_key content = (parsedKeyLens content).foldl max (-1) ∧
    (find_longest_key content = -1 ∨
      find_longest_key content ∈ parsedKeyLens content) ∧
    (∀ n ∈ parsedKeyLens content, n ≤ find_longest_key content) ∧
    (find_longest_key content = -1 ↔
      ∀ l ∈ splitlines content, parse_key_val_pair l = none) := by
  have he := find_longest_key_foldl content
  refine ⟨he, ?_, ?_, ?_, ?_⟩
  · rw [he]; exact foldl_max_mem_or _ _
  · intro n hn; rw [he]; exact foldl_max_le_of_mem hn _
  · intro h1 l hl
    cases hp : parse_key_val_pair l with
    | none => rfl
    | some p =>
        have hmem : ((p.1.length : Int)) ∈ parsedKeyLens content := by
          unfold parsedKeyLens
          exact List.mem_filterMap.mpr ⟨l, hl, by rw [hp]; rfl⟩
        have := foldl_max_le_of_mem hmem (-1)
        rw [← he, h1] at this
        omega
  · intro hall
    rw [he]
    have : parsedKeyLens content = [] := by
      unfold parsedKeyLens
      rw [List.filterMap_eq_nil_iff]
      intro l hl
      rw [hall l hl]; rfl
    rw [this]
    rfl

/-- Witness for C8: on a document with keys of lengths one and three plus a
slash line, the scanner result bounds the parsed length one and is not -1
(the slash line alone would give -1). -/
theorem find_longest_key_spec_witness :
    (1 : Int) ≤ find_longest_key (chars "a=1\nbbb = 2\n/") ∧
    ¬ find_longest_key (chars "a=1\nbbb = 2\n/") = -1 := by
  have h := find_longest_key_spec (chars "a=1\nbbb = 2\n/")
  constructor
  · exact h.2.2.1 1 (by decide)
  · intro h1
    have := (h.2.2.2.mp h1) (chars "a=1") (by decide)
    exact absurd this (by decide)

/-! ## The regex pattern as the spec states it -/

lemma keyChar_not_ws {c : Char} (h : keyChar c = true) : pyWs c = false := by
  unfold keyChar at h
  cases hpw : pyWs c
  · rfl
  · rw [hpw] at h; simp at h

lemma tryKey_sound {u k r : Str} (h : tryKey u = some (k, r)) :
    ∃ w3 eqs, u = k ++ w3 ++ eqs ++ r ∧ WsRun w3 ∧ eqs ≠ [] ∧
      (∀ x ∈ eqs, x = '=') ∧ k ≠ [] ∧ (∀ x ∈ k, keyChar x = true) := by
  obtain ⟨hk, hne, hh, hr⟩ := tryKey_some h
  refine ⟨(u.dropWhile keyChar).takeWhile pyWs,
    (((u.dropWhile keyChar).dropWhile pyWs).takeWhile (fun c => c == '=')),
    ?_, ?_, ?_, ?_, hne, ?_⟩
  · have e1 : u = u.takeWhile keyChar ++ u.dropWhile keyChar :=
      (List.takeWhile_append_dropWhile keyChar u).symm
    have e2 : u.dropWhile keyChar =
        (u.dropWhile keyChar).takeWhile pyWs ++ (u.dropWhile keyChar).dropWhile pyWs :=
      (List.takeWhile_append_dropWhile pyWs _).symm
    have e3 : (u.dropWhile keyChar).dropWhile pyWs =
        ((u.dropWhile keyChar).dropWhile pyWs).takeWhile (fun c => c == '=') ++
          ((u.dropWhile keyChar).dropWhile pyWs).dropWhile (fun c => c == '=') :=
      (List.takeWhile_append_dropWhile _ _).symm
    rw [hk, hr]
    conv_lhs => rw [e1, e2, e3]
    simp [List.append_assoc]
  · intro x hx; exact List.mem_takeWhile_imp hx
  · cases hd : (u.dropWhile keyChar).dropWhile pyWs with
    | nil => rw [hd] at hh; cases hh
    | cons b m =>
        rw [hd] at hh
        have hb : b = '=' := by
          unfold headIs at hh
          exact eq_of_beq hh
        subst hb
        simp [List.takeWhile_cons]
  · intro x hx
    have hx2 := List.mem_takeWhile_imp hx
    simp only [beq_iff_eq] at hx2
    exact hx2
  · intro x hx; rw [hk] at hx; exact List.mem_takeWhile_imp hx

lemma matchKV_sound {vp k r : Str} (h : matchKV vp = some (k, r)) :
    SpecMatch vp := by
  have base : ∀ w1 copt w2 u, vp = w1 ++ copt ++ w2 ++ u → WsRun w1 →
      (copt = [] ∨ copt = [',']) → WsRun w2 →
      tryKey u = some (k, r) → SpecMatch vp := by
    intro w1 copt w2 u hvp hw1 hcopt hw2 ht
    obtain ⟨w3, eqs, hu, hw3, hene, heeq, hkne, hkc⟩ := tryKey_sound ht
    refine ⟨w1, copt, w2, k, w3, eqs, r, ?_, hw1, hcopt, hw2, hkne, hkc,
      hw3, hene, heeq⟩
    rw [hvp, hu]
    simp [List.append_assoc]
  have hw1 : WsRun (vp.takeWhile pyWs) := fun x hx => List.mem_takeWhile_imp hx
  have hsplit : vp = vp.takeWhile pyWs ++ vp.dropWhile pyWs :=
    (List.takeWhile_append_dropWhile pyWs vp).symm
  unfold matchKV at h
  split at h
  next t heq =>
    rw [orElse_step] at h
    cases ho : tryKey (t.dropWhile pyWs) with
    | some p =>
        rw [ho] at h
        simp only [Option.some.injEq] at h
        subst h
        refine base (vp.takeWhile pyWs) [','] (t.takeWhile pyWs)
          (t.dropWhile pyWs) ?_ hw1 (Or.inr rfl)
          (fun x hx => List.mem_takeWhile_imp hx) ho
        conv_lhs => rw [hsplit, heq]
        conv_lhs => rw [show t = t.takeWhile pyWs ++ t.dropWhile pyWs from
          (List.takeWhile_append_dropWhile pyWs t).symm]
        simp [List.append_assoc]
    | none =>
        rw [ho] at h
        refine base (vp.takeWhile pyWs) [] [] (vp.dropWhile pyWs)
          (by simp) hw1 (Or.inl rfl) (by intro x hx; cases hx) h
  next =>
    exact base (vp.takeWhile pyWs) [] [] (vp.dropWhile pyWs)
      (by simp) hw1 (Or.inl rfl) (by intro x hx; cases hx) h

lemma tryKey_complete {k w3 eqs rest : Str}
    (hk : k ≠ []) (hkc : ∀ x ∈ k, keyChar x = true) (hw3 : WsRun w3)
    (he : eqs ≠ []) (hee : ∀ x ∈ eqs, x = '=') :
    (tryKey (k ++ w3 ++ eqs ++ rest)).isSome = true := by
  obtain ⟨e, es, rfl⟩ : ∃ e es, eqs = e :: es := by
    cases eqs with
    | nil => exact absurd rfl he
    | cons e es => exact ⟨e, es, rfl⟩
  have he2 : e = '=' := hee e (List.mem_cons_self e es)
  subst he2
  have hstep : ∃ b m, w3 ++ ('=' :: es ++ rest) = b :: m ∧ keyChar b = false ∧
      (b :: m).dropWhile pyWs = '=' :: (es ++ rest) := by
    cases w3 with
    | nil =>
        refine ⟨'=', es ++ rest, by simp, by decide, ?_⟩
        simp [List.dropWhile_cons, (by decide : pyWs '=' = false)]
    | cons b w3b =>
        have hb : pyWs b = true := hw3 b (List.mem_cons_self b w3b)
        refine ⟨b, w3b ++ ('=' :: es ++ rest), by simp, ?_, ?_⟩
        · unfold keyChar
          rw [hb]
          rfl
        · rw [List.dropWhile_cons]
          rw [hb]
          simp only [if_true]
          have : ∀ x ∈ w3b, pyWs x = true :=
            fun x hx => hw3 x (List.mem_cons_of_mem b hx)
          rw [dropWhile_append_all this]
          simp [List.dropWhile_cons, (by decide : pyWs '=' = false)]
  obtain ⟨b, m, hbm, hbk, hdrop⟩ := hstep
  have harr : k ++ w3 ++ ('=' :: es) ++ rest = k ++ (b :: m) := by
    rw [← hbm]
    simp [List.append_assoc]
  rw [harr]
  unfold tryKey
  rw [takeWhile_append_stop hkc hbk, dropWhile_append_stop hkc hbk, hdrop]
  have hne : ¬ (k.isEmpty = true) := by
    cases k with
    | nil => exact absurd rfl hk
    | cons a t => simp
  rw [if_neg hne]
  simp [headIs]

lemma dropWhile_ws_to_key {w u : Str} (hw : WsRun w) {b : Char} {m : Str}
    (hu : u = b :: m) (hb : pyWs b = false) :
    (w ++ u).dropWhile pyWs = u := by
  rw [dropWhile_append_all hw, hu]
  simp [List.dropWhile_cons, hb]

lemma orElse_isSome {α : Type} (a : Option α) (f : Unit → Option α)
    (h : (f ()).isSome = true ∨ a.isSome = true) :
    (a.orElse f).isSome = true := by
  cases a with
  | some x => rfl
  | none =>
      rcases h with h | h
      · rw [orElse_step]; exact h
      · cases h

lemma matchKV_complete {vp : Str} (h : SpecMatch vp) :
    (matchKV vp).isSome = true := by
  obtain ⟨w1, copt, w2, k, w3, eqs, rest, heq, hw1, hcopt, hw2, hk, hkc, hw3,
    he, hee⟩ := h
  obtain ⟨kh, kt, rfl⟩ : ∃ kh kt, k = kh :: kt := by
    cases k with
    | nil => exact absurd rfl hk
    | cons kh kt => exact ⟨kh, kt, rfl⟩
  have hkh : keyChar kh = true := hkc kh (List.mem_cons_self kh kt)
  have hkhw : pyWs kh = false := keyChar_not_ws hkh
  have hcore : ((kh :: kt) ++ w3 ++ eqs ++ rest).dropWhile pyWs =
      (kh :: kt) ++ w3 ++ eqs ++ rest := by
    simp [List.dropWhile_cons, hkhw]
  rcases hcopt with rfl | rfl
  · -- no comma in the decomposition
    have hd : vp.dropWhile pyWs = (kh :: kt) ++ w3 ++ eqs ++ rest := by
      rw [heq]
      simp only [List.append_nil, List.nil_append, List.append_assoc]
      rw [dropWhile_append_all hw1, dropWhile_append_all hw2]
      simpa [List.append_assoc] using hcore
    unfold matchKV
    rw [hd]
    by_cases hkhc : kh = ','
    · subst hkhc
      simp only [List.cons_append]
      exact orElse_isSome _ _ (Or.inl (by
        simpa [List.append_assoc] using
          tryKey_complete hk hkc hw3 he hee))
    · have : ∀ p, (match (kh :: (kt ++ w3 ++ eqs ++ rest) : Str) with
          | ',' :: t => (tryKey (t.dropWhile pyWs)).orElse
              (fun _ => tryKey (p : Str))
          | _ => tryKey p) = tryKey p := by
        intro p
        split
        next t hcontra =>
          rw [List.cons.injEq] at hcontra
          exact absurd hcontra.1 hkhc
        next => rfl
      simp only [List.cons_append] at this ⊢
      rw [this]
      simpa [List.cons_append, List.append_assoc] using
        tryKey_complete hk hkc hw3 he hee
  · -- a comma in the decomposition
    have hd : vp.dropWhile pyWs = ',' :: (w2 ++ ((kh :: kt) ++ w3 ++ eqs ++ rest)) := by
      rw [heq]
      simp only [List.append_assoc, List.cons_append, List.nil_append]
      rw [dropWhile_append_all hw1]
      simp [List.dropWhile_cons, List.append_assoc,
        (by decide : pyWs ',' = false)]
    unfold matchKV
    rw [hd]
    refine orElse_isSome _ _ (Or.inr ?_)
    have : (w2 ++ ((kh :: kt) ++ w3 ++ eqs ++ rest)).dropWhile pyWs =
        (kh :: kt) ++ w3 ++ eqs ++ rest := by
      rw [dropWhile_append_all hw2]
      exact hcore
    rw [this]
    simpa [List.append_assoc] using tryKey_complete hk hkc hw3 he hee

lemma parse_none_iff (line : Str) :
    parse_key_val_pair line = none ↔ matchKV (bangPre line) = none := by
  unfold parse_key_val_pair bangPre
  cases hm : matchKV
      (if line.contains '!' then line.takeWhile (fun c => c != '!') else line) with
  | none => simp
  | some p =>
      obtain ⟨pk, pv⟩ := p
      simp

/-- Counterexample to claim C4: the claimed pattern has no whitespace slot
between the key and the equals signs (nor after the optional comma), so a
plain line with a space before its equals sign matches no decomposition of
the claimed pattern, yet the parser accepts it. -/
theorem parse_error_iff_cex :
    parse_key_val_pair (chars "a = 1") = some (chars "a", chars "1", []) ∧
    ¬ ClaimMatch (chars "a = 1") := by
  refine ⟨by decide, ?_⟩
  rintro ⟨w1, copt, k, eqs, rest, heq, hw1, hcopt, hk, hkc, he, hee⟩
  rw [show chars "a = 1" = ['a', ' ', '=', ' ', '1'] from by decide] at heq
  obtain ⟨kh, kt, rfl⟩ : ∃ kh kt, k = kh :: kt := by
    cases k with
    | nil => exact absurd rfl hk
    | cons kh kt => exact ⟨kh, kt, rfl⟩
  obtain ⟨eh, et, rfl⟩ : ∃ eh et, eqs = eh :: et := by
    cases eqs with
    | nil => exact absurd rfl he
    | cons eh et => exact ⟨eh, et, rfl⟩
  have heh : eh = '=' := hee eh (List.mem_cons_self eh et)
  subst heh
  cases w1 with
  | cons c w1t =>
      simp only [List.cons_append, List.cons.injEq] at heq
      have hws := hw1 c (List.mem_cons_self c w1t)
      rw [← heq.1] at hws
      exact absurd hws (by decide)
  | nil =>
    simp only [List.nil_append] at heq
    rcases hcopt with rfl | rfl
    · simp only [List.nil_append, List.cons_append, List.cons.injEq] at heq
      obtain ⟨h1, heq⟩ := heq
      cases kt with
      | nil =>
          simp only [List.nil_append, List.cons_append, List.cons.injEq] at heq
          exact absurd heq.1 (by decide)
      | cons k2 kt2 =>
          simp only [List.cons_append, List.cons.injEq] at heq
          have hk2 := hkc k2 (by simp)
          rw [← heq.1] at hk2
          exact absurd hk2 (by decide)
    · simp only [List.cons_append, List.cons.injEq] at heq
      exact absurd heq.1 (by decide)

/-- Claim C4 as amended: the parser rejects a line exactly when the part of
the line before its first exclamation mark matches no decomposition into
optional whitespace, an optional leading comma, optional whitespace, a
nonempty key of non-whitespace non-equals characters, optional whitespace,
and one or more equals signs; on success the comment is the marker plus
the trimmed text after the first exclamation mark, and empty for a line
without one. -/
theorem parse_error_iff_pattern (line : Str) :
    (parse_key_val_pair line = none ↔ ¬ SpecMatch (bangPre line)) ∧
    (∀ k v c, parse_key_val_pair line = some (k, v, c) → c = bangComment line) := by
  constructor
  · rw [parse_none_iff]
    constructor
    · intro hnone hsm
      have := matchKV_complete hsm
      rw [hnone] at this
      cases this
    · intro hns
      cases hm : matchKV (bangPre line) with
      | none => rfl
      | some p =>
          obtain ⟨pk, pv⟩ := p
          exact absurd (matchKV_sound hm) hns
  · intro k v c h
    exact (parse_some_props h).2.2

/-- Witness for C4 amended: the comment clause applied to a concrete line
with an inline comment. -/
theorem parse_error_iff_pattern_witness :
    chars " ! c" = bangComment (chars "q=1 ! c") := by
  exact ((parse_error_iff_pattern (chars "q=1 ! c")).2 (chars "q") (chars "1")
    (chars " ! c") (by decide)).symm.symm

/-! ## Invariance of the matcher under trailing whitespace

The per-line loop of format_nml right-strips each line before formatting,
while find_longest_key parses the raw lines; these lemmas show the matched
key (and match success) do not depend on trailing whitespace. -/

lemma dropWhile_append_split (p : Char → Bool) (a b : Str) :
    (a ++ b).dropWhile p =
      if (a.dropWhile p).isEmpty then b.dropWhile p else a.dropWhile p ++ b := by
  induction a with
  | nil => simp
  | cons x t ih =>
      by_cases hx : p x = true
      · simp only [List.cons_append, List.dropWhile_cons, hx, if_true]
        exact ih
      · rw [Bool.not_eq_true] at hx
        simp [List.cons_append, List.dropWhile_cons, hx]

lemma takeWhile_append_split (p : Char → Bool) (a b : Str) :
    (a ++ b).takeWhile p =
      if (a.dropWhile p).isEmpty then a ++ b.takeWhile p else a.takeWhile p := by
  induction a with
  | nil => simp
  | cons x t ih =>
      by_cases hx : p x = true
      · simp only [List.cons_append, List.takeWhile_cons, List.dropWhile_cons, hx,
          if_true]
        rw [ih]
        by_cases hd : ((t.dropWhile p).isEmpty : Prop) <;> simp [hd]
      · rw [Bool.not_eq_true] at hx
        simp [List.cons_append, List.takeWhile_cons, List.dropWhile_cons, hx]

lemma ws_not_keyChar {c : Char} (h : pyWs c = true) : keyChar c = false := by
  unfold keyChar
  rw [h]
  rfl

lemma tryKey_append_ws_key (u w : Str) (hw : WsRun w) :
    (tryKey (u ++ w)).map Prod.fst = (tryKey u).map Prod.fst := by
  have hdw : w.dropWhile pyWs = [] := dropWhile_all hw
  have hkw : w.takeWhile keyChar = [] := by
    cases w with
    | nil => rfl
    | cons c wt =>
        simp [List.takeWhile_cons, ws_not_keyChar (hw c (by simp))]
  have hdkw : w.dropWhile keyChar = w := by
    cases w with
    | nil => rfl
    | cons c wt =>
        simp [List.dropWhile_cons, ws_not_keyChar (hw c (by simp))]
  unfold tryKey
  rw [takeWhile_append_split, dropWhile_append_split]
  by_cases hdu : ((u.dropWhile keyChar).isEmpty : Prop)
  · rw [if_pos hdu, if_pos hdu]
    have hdu2 : u.dropWhile keyChar = [] := List.isEmpty_iff.mp hdu
    have hta : u.takeWhile keyChar = u :=
      takeWhile_all (List.dropWhile_eq_nil_iff.mp hdu2)
    rw [hkw, hta, hdu2, hdkw, hdw]
    simp [headIs]
  · rw [if_neg hdu, if_neg hdu]
    rw [dropWhile_append_split]
    by_cases hr : (((u.dropWhile keyChar).dropWhile pyWs).isEmpty : Prop)
    · rw [if_pos hr, hdw, List.isEmpty_iff.mp hr]
    · rw [if_neg hr]
      obtain ⟨e, rt, hre⟩ : ∃ e rt, (u.dropWhile keyChar).dropWhile pyWs = e :: rt := by
        cases hrr : (u.dropWhile keyChar).dropWhile pyWs with
        | nil => rw [hrr] at hr; simp at hr
        | cons e rt => exact ⟨e, rt, rfl⟩
      rw [hre]
      simp only [List.cons_append]
      by_cases hk : ((u.takeWhile keyChar).isEmpty : Prop)
      · rw [if_pos hk, if_pos hk]
      · rw [if_neg hk, if_neg hk]
        by_cases he : e = '='
        · subst he
          simp [headIs]
        · have : (e == '=') = false := by
            cases hb : e == '='
            · rfl
            · exact absurd (eq_of_beq hb) he
          simp [headIs, this]

lemma matchKV_eq_of_head_not_comma {vp : Str}
    (h : headIs ',' (vp.dropWhile pyWs) = false) :
    matchKV vp = tryKey (vp.dropWhile pyWs) := by
  unfold matchKV
  split
  next t heq => rw [heq] at h; simp [headIs] at h
  next => rfl

lemma matchKV_eq_of_comma {vp t : Str} (h : vp.dropWhile pyWs = ',' :: t) :
    matchKV vp =
      (tryKey (t.dropWhile pyWs)).orElse (fun _ => tryKey (vp.dropWhile pyWs)) := by
  unfold matchKV
  split
  next t2 heq =>
    rw [h] at heq
    injection heq with h1 h2
    subst h2
    rfl
  next hne => exact absurd h (hne t)

lemma orElse_map_fst_congr {a2 a : Option (Str × Str)}
    {f g : Unit → Option (Str × Str)}
    (ha : a2.map Prod.fst = a.map Prod.fst)
    (hf : (f ()).map Prod.fst = (g ()).map Prod.fst) :
    (a2.orElse f).map Prod.fst = (a.orElse g).map Prod.fst := by
  cases a with
  | some x =>
      cases a2 with
      | some y => exact ha
      | none => simp at ha
  | none =>
      cases a2 with
      | some y => simp at ha
      | none => rw [orElse_step, orElse_step]; exact hf

lemma matchKV_append_ws_key (vp w : Str) (hw : WsRun w) :
    (matchKV (vp ++ w)).map Prod.fst = (matchKV vp).map Prod.fst := by
  have hdw : w.dropWhile pyWs = [] := dropWhile_all hw
  have hsplit := dropWhile_append_split pyWs vp w
  by_cases hs : ((vp.dropWhile pyWs).isEmpty : Prop)
  · rw [if_pos hs] at hsplit
    have hs2 : vp.dropWhile pyWs = [] := List.isEmpty_iff.mp hs
    rw [hdw] at hsplit
    rw [matchKV_eq_of_head_not_comma (by rw [hsplit]; rfl),
      matchKV_eq_of_head_not_comma (by rw [hs2]; rfl), hsplit, hs2]
  · rw [if_neg hs] at hsplit
    obtain ⟨sh, st, hse⟩ : ∃ sh st, vp.dropWhile pyWs = sh :: st := by
      cases hss : vp.dropWhile pyWs with
      | nil => rw [hss] at hs; simp at hs
      | cons sh st => exact ⟨sh, st, rfl⟩
    rw [hse] at hsplit
    simp only [List.cons_append] at hsplit
    by_cases hsh : sh = ','
    · subst hsh
      rw [matchKV_eq_of_comma hsplit, matchKV_eq_of_comma hse]
      apply orElse_map_fst_congr
      · have hsplit2 := dropWhile_append_split pyWs st w
        by_cases hst : ((st.dropWhile pyWs).isEmpty : Prop)
        · rw [if_pos hst, hdw] at hsplit2
          rw [hsplit2, List.isEmpty_iff.mp hst]
        · rw [if_neg hst] at hsplit2
          rw [hsplit2]
          exact tryKey_append_ws_key (st.dropWhile pyWs) w hw
      · rw [hsplit, hse]
        have := tryKey_append_ws_key (',' :: st) w hw
        simpa [List.cons_append] using this
    · have hshb : (sh == ',') = false := by
        cases hb : sh == ','
        · rfl
        · exact absurd (eq_of_beq hb) hsh
      have hnc : headIs ',' ((vp ++ w).dropWhile pyWs) = false := by
        rw [hsplit]
        show (sh == ',') = false
        exact hshb
      have hnc2 : headIs ',' (vp.dropWhile pyWs) = false := by
        rw [hse]
        show (sh == ',') = false
        exact hshb
      rw [matchKV_eq_of_head_not_comma hnc, matchKV_eq_of_head_not_comma hnc2,
        hsplit, hse]
      have := tryKey_append_ws_key (sh :: st) w hw
      simpa [List.cons_append] using this

lemma contains_append_ws {l w : Str} (hw : WsRun w) :
    (l ++ w).contains '!' = l.contains '!' := by
  cases hc : l.contains '!'
  · rw [← Bool.not_eq_true, List.elem_iff] at hc ⊢
    intro hmem
    rcases List.mem_append.mp hmem with hm | hm
    · exact hc hm
    · have := hw '!' hm
      exact absurd this (by decide)
  · rw [List.elem_iff] at hc ⊢
    exact List.mem_append.mpr (Or.inl hc)

lemma parse_map_fst (line : Str) :
    (parse_key_val_pair line).map (fun t => t.1) =
      (matchKV (bangPre line)).map Prod.fst := by
  unfold parse_key_val_pair bangPre
  cases hm : matchKV
      (if line.contains '!' then line.takeWhile (fun c => c != '!') else line) with
  | none => simp
  | some p => obtain ⟨pk, pv⟩ := p; simp

/-- The matched key (and match success) of a line does not change when
trailing whitespace is appended. -/
lemma parse_append_ws_key (l w : Str) (hw : WsRun w) :
    (parse_key_val_pair (l ++ w)).map (fun t => t.1) =
      (parse_key_val_pair l).map (fun t => t.1) := by
  rw [parse_map_fst, parse_map_fst]
  by_cases hb : (l.contains '!' : Prop)
  · have hbw : (l ++ w).contains '!' = true := by
      rw [contains_append_ws hw]; exact hb
    have hstop : l.dropWhile (fun c => c != '!') ≠ [] := by
      rw [List.elem_iff] at hb
      intro hnil
      have hall := List.dropWhile_eq_nil_iff.mp hnil
      have := hall '!' hb
      simp at this
    have htw : (l ++ w).takeWhile (fun c => c != '!') =
        l.takeWhile (fun c => c != '!') := by
      rw [takeWhile_append_split]
      rw [if_neg (fun hisE => hstop (List.isEmpty_iff.mp hisE))]
    unfold bangPre
    rw [if_pos hbw, if_pos hb, htw]
  · have hbw : ¬ ((l ++ w).contains '!' = true) := by
      rw [contains_append_ws hw]; exact hb
    unfold bangPre
    rw [if_neg hbw, if_neg hb]
    exact matchKV_append_ws_key l w hw


/-! ## Lines produced by splitlines contain no terminator -/

lemma dropWhile_id_of_all_neg {p : Char → Bool} {l : Str}
    (h : ∀ c ∈ l, p c = false) : l.dropWhile p = l := by
  cases l with
  | nil => rfl
  | cons x t => simp [List.dropWhile_cons, h x (by simp)]

lemma stripP_id {p : Char → Bool} {l : Str} (h : ∀ c ∈ l, p c = false) :
    stripP p l = l := by
  unfold stripP rstripP
  rw [dropWhile_id_of_all_neg h]
  rw [dropWhile_id_of_all_neg (fun c hc => h c (List.mem_reverse.mp hc))]
  simp

lemma splitlinesGo_no_sep (acc s : Str) :
    (∀ c ∈ acc, lineSep c = false) →
    ∀ l ∈ splitlinesGo acc s, ∀ c ∈ l, lineSep c = false := by
  induction acc, s using splitlinesGo.induct with
  | case1 acc he =>
      intro hacc l hl
      rw [splitlinesGo, if_pos he] at hl
      cases hl
  | case2 acc he =>
      intro hacc l hl
      rw [splitlinesGo, if_neg he] at hl
      rcases List.mem_singleton.mp hl with rfl
      intro c hc
      exact hacc c (List.mem_reverse.mp hc)
  | case3 acc rest ih =>
      intro hacc l hl
      rw [splitlinesGo] at hl
      rcases List.mem_cons.mp hl with rfl | hl2
      · intro c hc; exact hacc c (List.mem_reverse.mp hc)
      · exact ih (by intro c hc; cases hc) l hl2
  | case4 acc c rest hne hsep ih =>
      intro hacc l hl
      rw [splitlinesGo] at hl
      · rw [if_pos hsep] at hl
        rcases List.mem_cons.mp hl with rfl | hl2
        · intro x hx; exact hacc x (List.mem_reverse.mp hx)
        · exact ih (by intro x hx; cases hx) l hl2
      · exact hne
  | case5 acc c rest hne hsep ih =>
      intro hacc l hl
      rw [splitlinesGo] at hl
      · rw [if_neg hsep] at hl
        refine ih ?_ l hl
        intro x hx
        rcases List.mem_cons.mp hx with rfl | hx2
        · rw [Bool.not_eq_true] at hsep; exact hsep
        · exact hacc x hx2
      · exact hne

lemma splitlines_no_sep {s raw : Str} (h : raw ∈ splitlines s) :
    ∀ c ∈ raw, lineSep c = false :=
  splitlinesGo_no_sep [] s (by intro c hc; cases hc) raw h

lemma procLine_eq_rstrip {raw : Str} (h : ∀ c ∈ raw, lineSep c = false) :
    procLine raw = rstripP pyWs raw := by
  unfold procLine
  rw [stripP_id]
  intro c hc
  cases hb : c == '\n'
  · rfl
  · have := h c hc
    rw [eq_of_beq hb] at this
    exact absurd this (by decide)

lemma parse_procLine_key {raw : Str} (h : ∀ c ∈ raw, lineSep c = false) :
    (parse_key_val_pair (procLine raw)).map (fun t => t.1) =
      (parse_key_val_pair raw).map (fun t => t.1) := by
  rw [procLine_eq_rstrip h]
  obtain ⟨hdecomp, hws⟩ := rstripP_decomp pyWs raw
  conv_rhs => rw [hdecomp]
  rw [parse_append_ws_key _ _ hws]

/-- The key parsed by the loop (from the preprocessed line) is bounded by
the scanner result on the whole document, and forces the scanner result to
be at least one. -/
lemma key_le_longest {content raw k v c : Str}
    (hmem : raw ∈ splitlines content)
    (hp : parse_key_val_pair (procLine raw) = some (k, v, c)) :
    (k.length : Int) ≤ find_longest_key content ∧
      1 ≤ find_longest_key content := by
  have hsep := splitlines_no_sep hmem
  have hkey := parse_procLine_key hsep
  rw [hp] at hkey
  cases hr : parse_key_val_pair raw with
  | none => rw [hr] at hkey; simp at hkey
  | some q =>
      rw [hr] at hkey
      simp only [Option.map_some', Option.some.injEq] at hkey
      have hmem2 : ((q.1.length : Int)) ∈ parsedKeyLens content := by
        unfold parsedKeyLens
        exact List.mem_filterMap.mpr ⟨raw, hmem, by rw [hr]; rfl⟩
      have hle := foldl_max_le_of_mem hmem2 (-1)
      rw [← find_longest_key_foldl] at hle
      rw [← hkey] at hle
      have hkne : k ≠ [] := (parse_some_props hp).1.1
      have h1 : 1 ≤ k.length := by
        cases k with
        | nil => exact absurd rfl hkne
        | cons a t => simp
      refine ⟨hle, ?_⟩
      calc (1 : Int) ≤ (k.length : Int) := by exact_mod_cast h1
        _ ≤ _ := hle

/-- Only the assignment branch of the loop emits assignment-tagged lines,
and it emits exactly the format_line output of the preprocessed line. -/
lemma processLine_assign {a bi : Int} {tc kc kw ib : Bool} {raw : Str}
    {ib2 : Bool} {outs : List (LKind × Str)} {fl : Str}
    (h : processLine a bi tc kc kw ib raw = some (ib2, outs))
    (hmem : (LKind.assign, fl) ∈ outs) :
    format_line (procLine raw) a bi tc kc = some fl := by
  simp only [processLine] at h
  by_cases h1 : (headIs '&' (stripWs (procLine raw)) = true)
  · rw [if_pos h1] at h
    simp only [Option.some.injEq, Prod.mk.injEq] at h
    rw [← h.2] at hmem
    simp at hmem
  · rw [if_neg h1] at h
    by_cases h2 : (stripWs (procLine raw) = ['/'])
    · rw [if_pos h2] at h
      simp only [Option.some.injEq, Prod.mk.injEq] at h
      rw [← h.2] at hmem
      simp at hmem
    · rw [if_neg h2] at h
      by_cases h3 : (procLine raw = [])
      · rw [if_pos h3] at h
        simp only [Option.some.injEq, Prod.mk.injEq] at h
        rw [← h.2] at hmem
        by_cases hkwib : ((kw && ib) = true)
        · rw [if_pos hkwib] at hmem; simp at hmem
        · rw [if_neg hkwib] at hmem; simp at hmem
      · rw [if_neg h3] at h
        by_cases h4 : (headIs '!' (stripWs (procLine raw)) = true)
        · rw [if_pos h4] at h
          simp only [Option.some.injEq, Prod.mk.injEq] at h
          rw [← h.2] at hmem
          by_cases hkc : (kc = true)
          · rw [if_pos hkc] at hmem; simp at hmem
          · rw [if_neg hkc] at hmem; simp at hmem
        · rw [if_neg h4] at h
          cases hf : format_line (procLine raw) a bi tc kc with
          | none => rw [hf] at h; cases h
          | some fl2 =>
              rw [hf] at h
              simp only [Option.map_some', Option.some.injEq, Prod.mk.injEq] at h
              rw [← h.2] at hmem
              simp only [List.mem_singleton, Prod.mk.injEq] at hmem
              rw [hmem.2]

/-- Every line emitted by the loop comes from processing one input line. -/
lemma nmlRun_mem {a bi : Int} {tc kc kw : Bool} {lines : List Str}
    {ib ibf : Bool} {touts : List (LKind × Str)}
    (h : nmlRun a bi tc kc kw ib lines = some (ibf, touts))
    {q : LKind × Str} (hq : q ∈ touts) :
    ∃ raw ∈ lines, ∃ ib1 ib2 outs,
      processLine a bi tc kc kw ib1 raw = some (ib2, outs) ∧ q ∈ outs := by
  induction lines generalizing ib touts with
  | nil =>
      unfold nmlRun at h
      simp only [Option.some.injEq, Prod.mk.injEq] at h
      rw [← h.2] at hq
      cases hq
  | cons l t ih =>
      unfold nmlRun at h
      cases hp : processLine a bi tc kc kw ib l with
      | none => rw [hp] at h; cases h
      | some p =>
          obtain ⟨ib1, out⟩ := p
          rw [hp] at h
          simp only [Option.bind_eq_bind, Option.some_bind] at h
          cases hr : nmlRun a bi tc kc kw ib1 t with
          | none => rw [hr] at h; cases h
          | some pr =>
              obtain ⟨ibf2, tailOut⟩ := pr
              rw [hr] at h
              simp only [Option.some_bind, Option.pure_def, Option.some.injEq,
                Prod.mk.injEq] at h
              obtain ⟨rfl, rfl⟩ := h
              rcases List.mem_append.mp hq with hq1 | hq2
              · exact ⟨l, List.mem_cons_self l t, ib, ib1, out, hp, hq1⟩
              · obtain ⟨raw, hraw, rest⟩ := ih hr hq2
                exact ⟨raw, List.mem_cons_of_mem l hraw, rest⟩

lemma mem_spaces {n : Int} {x : Char} (h : x ∈ spaces n) : x = ' ' := by
  unfold spaces at h
  exact List.eq_of_mem_replicate h

/-- The first equals sign of a formatted assignment line sits right after
the indent, the key and the padding. -/
lemma eqCol_formatted (bi : Int) (k rest : Str) (padI : Int)
    (hkc : ∀ x ∈ k, keyChar x = true) :
    eqCol (spaces bi ++ (k ++ (spaces padI ++ (chars " = " ++ rest)))) =
      (spaces bi).length + k.length + (spaces padI).length + 1 := by
  unfold eqCol
  have hsp : ∀ n : Int, ∀ x ∈ spaces n, (x != '=') = true := by
    intro n x hx
    rw [mem_spaces hx]
    decide
  have hkq : ∀ x ∈ k, (x != '=') = true := by
    intro x hx
    have := hkc x hx
    unfold keyChar at this
    exact ((Bool.and_eq_true _ _).mp this).2
  have hchars : chars " = " ++ rest = ' ' :: '=' :: (' ' :: rest) := rfl
  rw [hchars]
  rw [takeWhile_append_all (hsp bi)]
  rw [takeWhile_append_all hkq]
  rw [takeWhile_append_all (hsp padI)]
  rw [List.takeWhile_cons]
  simp only [(by decide : ((' ' != '=') = true)), if_true]
  rw [List.takeWhile_cons]
  simp only [(by decide : (('=' != '=') = false)), Bool.false_eq_true, if_false]
  simp only [List.length_append, List.length_cons, List.length_nil]
  omega

/-- Counterexample to claim C2: with eq_offset zero (and block_indent zero,
so the indent cannot be blamed), keys of lengths two and one get their
equals signs at columns four and three: the clamp to one space of padding
makes the columns differ, and neither equals longest plus offset (two). -/
theorem eq_column_uniform_cex :
    format_nml_lines (chars "ab=1\na=2") 0 0 true true true =
      some [chars "ab  = 1,", chars "a  = 2,"] ∧
    eqCol (chars "ab  = 1,") ≠ eqCol (chars "a  = 2,") ∧
    eqCol (chars "ab  = 1,") ≠
      (find_longest_key (chars "ab=1\na=2") + 0).toNat := by
  refine ⟨by decide, by decide, by decide⟩

/-- Claim C2 as amended: whenever eq_offset is at least two (so that the
clamp to one space of padding never fires; every key is at most the
longest) and block_indent is nonnegative, the equals sign of every
assignment line emitted by format_nml sits at the same column,
block_indent plus longest key length plus eq_offset, counted from the
start of the line. -/
theorem eq_column_uniform (content : Str) (eqo bi : Int) (tc kc kw : Bool)
    (tls : List (LKind × Str))
    (h2 : 2 ≤ eqo) (hbi : 0 ≤ bi)
    (hrun : format_nml_tagged content eqo bi tc kc kw = some tls) :
    ∀ fl : Str, (LKind.assign, fl) ∈ tls →
      eqCol fl = (bi + (find_longest_key content + eqo)).toNat := by
  intro fl hfl
  unfold format_nml_tagged at hrun
  cases hr : nmlRun (find_longest_key content + eqo) bi tc kc kw false
      (splitlines content) with
  | none => rw [hr] at hrun; cases hrun
  | some p =>
      obtain ⟨ibf, touts⟩ := p
      rw [hr] at hrun
      simp only [Option.map_some', Option.some.injEq] at hrun
      rw [← hrun] at hfl
      obtain ⟨raw, hraw, ib1, ib2, outs, hproc, hout⟩ := nmlRun_mem hr hfl
      have hfmt := processLine_assign hproc hout
      cases hp : parse_key_val_pair (procLine raw) with
      | none => rw [format_line, hp] at hfmt; cases hfmt
      | some trip =>
          obtain ⟨k, v, c⟩ := trip
          rw [format_line_eq (procLine raw) _ bi tc kc k v c hp] at hfmt
          obtain rfl := (Option.some_inj.mp hfmt)
          obtain ⟨hkle, h1le⟩ := key_le_longest hraw hp
          have hkc := (parse_some_props hp).1.2
          simp only [List.append_assoc]
          rw [eqCol_formatted bi k _ _ hkc]
          have hpad : max (find_longest_key content + eqo - k.length - 1) 1 =
              find_longest_key content + eqo - k.length - 1 := by
            rw [max_eq_left]
            omega
          rw [hpad]
          unfold spaces
          simp only [List.length_replicate]
          omega

/-- Witness for C2 amended: in a two-assignment document with default-style
options the equals signs of both emitted lines sit at column eight. -/
theorem eq_column_uniform_witness :
    eqCol (chars "  a      = 1,") = 9 ∧ eqCol (chars "  ab     = 2,") = 9 := by
  have h := eq_column_uniform (chars "a=1\nab=2") 5 2 true true true
    [(LKind.assign, chars "  a      = 1,"), (LKind.assign, chars "  ab     = 2,")]
    (by decide) (by decide) (by decide)
  constructor
  · have := h (chars "  a      = 1,") (by decide)
    rw [this]
    decide
  · have := h (chars "  ab     = 2,") (by decide)
    rw [this]
    decide

/-! ## Character facts about str.lower -/

lemma char_eq_of_toNat {c d : Char} (h : c.toNat = d.toNat) : c = d :=
  Char.eq_of_val_eq (UInt32.ext h)

lemma char_toNat_ofNat {n : Nat} (h : n < 55296) : (Char.ofNat n).toNat = n := by
  unfold Char.ofNat
  rw [dif_pos (Or.inl h)]
  unfold Char.ofNatAux Char.toNat UInt32.toNat
  simp

lemma beq_toNat (c d : Char) : (c == d) = decide (c.toNat = d.toNat) := by
  cases hb : c == d
  · cases hd : decide (c.toNat = d.toNat)
    · rfl
    · have := char_eq_of_toNat (of_decide_eq_true hd)
      rw [this] at hb
      simp at hb
  · rw [eq_of_beq hb]
    simp

lemma toLower_cases (c : Char) :
    Char.toLower c = c ∨
      (65 ≤ c.toNat ∧ c.toNat ≤ 90 ∧ (Char.toLower c).toNat = c.toNat + 32) := by
  unfold Char.toLower
  by_cases h : (c.toNat ≥ 65 ∧ c.toNat ≤ 90)
  · right
    rw [if_pos h]
    exact ⟨h.1, h.2, char_toNat_ofNat (by omega)⟩
  · left
    rw [if_neg h]

lemma beq_toLower_low {c d : Char} (hd : d.toNat < 65) :
    (Char.toLower c == d) = (c == d) := by
  rcases toLower_cases c with he | ⟨h1, h2, h3⟩
  · rw [he]
  · rw [beq_toNat, beq_toNat]
    have hne1 : ¬((Char.toLower c).toNat = d.toNat) := by omega
    have hne2 : ¬(c.toNat = d.toNat) := by omega
    simp [hne1, hne2]

lemma lineSep_toLower (c : Char) : lineSep (Char.toLower c) = lineSep c := by
  unfold lineSep
  rw [beq_toLower_low (by decide), beq_toLower_low (by decide),
    beq_toLower_low (by decide), beq_toLower_low (by decide)]

lemma pyWs_toLower (c : Char) : pyWs (Char.toLower c) = pyWs c := by
  unfold pyWs
  rw [beq_toLower_low (by decide), beq_toLower_low (by decide), lineSep_toLower]

lemma keyChar_toLower (c : Char) : keyChar (Char.toLower c) = keyChar c := by
  unfold keyChar
  rw [pyWs_toLower]
  show (!pyWs c && !(Char.toLower c == '=')) = (!pyWs c && !(c == '='))
  rw [beq_toLower_low (by decide)]

lemma toLower_idem (c : Char) :
    Char.toLower (Char.toLower c) = Char.toLower c := by
  rcases toLower_cases c with he | ⟨h1, h2, h3⟩
  · rw [he, he]
  · rcases toLower_cases (Char.toLower c) with he2 | ⟨g1, g2, g3⟩
    · exact he2
    · omega

lemma toLower_eq_iff_low {c d : Char} (hd : d.toNat < 65) :
    Char.toLower c = d ↔ c = d := by
  constructor
  · intro h
    have : (Char.toLower c == d) = true := by rw [h]; simp
    rw [beq_toLower_low hd] at this
    exact eq_of_beq this
  · intro h
    rcases toLower_cases c with he | ⟨h1, h2, h3⟩
    · rw [he, h]
    · subst h; omega

lemma takeWhile_ext {p q : Char → Bool} {l : Str} (h : ∀ a ∈ l, p a = q a) :
    l.takeWhile p = l.takeWhile q := by
  induction l with
  | nil => rfl
  | cons x t ih =>
      rw [List.takeWhile_cons, List.takeWhile_cons, h x (by simp),
        ih (fun a ha => h a (by simp [ha]))]

lemma dropWhile_ext {p q : Char → Bool} {l : Str} (h : ∀ a ∈ l, p a = q a) :
    l.dropWhile p = l.dropWhile q := by
  induction l with
  | nil => rfl
  | cons x t ih =>
      rw [List.dropWhile_cons, List.dropWhile_cons, h x (by simp),
        ih (fun a ha => h a (by simp [ha]))]

lemma takeWhile_lower {p : Char → Bool} (hp : ∀ c, p (Char.toLower c) = p c)
    (l : Str) : (lowerAscii l).takeWhile p = lowerAscii (l.takeWhile p) := by
  unfold lowerAscii
  rw [List.takeWhile_map]
  rw [@takeWhile_ext (p ∘ Char.toLower) p _ (fun a _ => hp a)]

lemma dropWhile_lower {p : Char → Bool} (hp : ∀ c, p (Char.toLower c) = p c)
    (l : Str) : (lowerAscii l).dropWhile p = lowerAscii (l.dropWhile p) := by
  unfold lowerAscii
  rw [List.dropWhile_map]
  rw [@dropWhile_ext (p ∘ Char.toLower) p _ (fun a _ => hp a)]

lemma headIs_lower_low {d : Char} (hd : d.toNat < 65) (l : Str) :
    headIs d (lowerAscii l) = headIs d l := by
  cases l with
  | nil => rfl
  | cons x t =>
      show (Char.toLower x == d) = (x == d)
      exact beq_toLower_low hd

lemma bne_toLower_low {d : Char} (hd : d.toNat < 65) (c : Char) :
    (Char.toLower c != d) = (c != d) := by
  show (!(Char.toLower c == d)) = (!(c == d))
  rw [beq_toLower_low hd]

lemma beq_eq_toLower_low (c : Char) :
    ((fun x => x == '=') (Char.toLower c)) = ((fun x => x == '=') c) :=
  beq_toLower_low (by decide)

lemma tryKey_lower (u : Str) :
    tryKey (lowerAscii u) =
      (tryKey u).map (fun p => (lowerAscii p.1, lowerAscii p.2)) := by
  unfold tryKey
  rw [takeWhile_lower keyChar_toLower, dropWhile_lower keyChar_toLower,
    dropWhile_lower pyWs_toLower,
    headIs_lower_low (by decide),
    @dropWhile_lower (fun c => c == '=') beq_eq_toLower_low]
  by_cases h1 : ((u.takeWhile keyChar).isEmpty : Prop)
  · have : u.takeWhile keyChar = [] := List.isEmpty_iff.mp h1
    rw [this]
    simp [lowerAscii]
  · have h1b : ¬ ((lowerAscii (u.takeWhile keyChar)).isEmpty : Prop) := by
      intro hc
      have := List.isEmpty_iff.mp hc
      unfold lowerAscii at this
      rw [List.map_eq_nil_iff] at this
      exact h1 (by rw [this]; rfl)
    rw [if_neg h1b, if_neg h1]
    by_cases h2 : (headIs '=' ((u.dropWhile keyChar).dropWhile pyWs) = true)
    · rw [if_pos h2, if_pos h2]
      rfl
    · rw [if_neg h2, if_neg h2]
      rfl

lemma dropWhile_pyWs_lower (vp : Str) :
    (lowerAscii vp).dropWhile pyWs = lowerAscii (vp.dropWhile pyWs) :=
  dropWhile_lower pyWs_toLower vp

lemma matchKV_lower (vp : Str) :
    matchKV (lowerAscii vp) =
      (matchKV vp).map (fun p => (lowerAscii p.1, lowerAscii p.2)) := by
  cases hs : vp.dropWhile pyWs with
  | nil =>
      rw [matchKV_eq_of_head_not_comma (by rw [dropWhile_pyWs_lower, hs]; rfl),
        matchKV_eq_of_head_not_comma (by rw [hs]; rfl)]
      rw [dropWhile_pyWs_lower, hs]
      exact tryKey_lower []
  | cons sh st =>
      by_cases hsh : sh = ','
      · subst hsh
        have hs2 : (lowerAscii vp).dropWhile pyWs = ',' :: lowerAscii st := by
          rw [dropWhile_pyWs_lower, hs]
          rfl
        rw [matchKV_eq_of_comma hs, matchKV_eq_of_comma hs2]
        rw [hs2, hs]
        show ((tryKey ((lowerAscii st).dropWhile pyWs)).orElse
            (fun _ => tryKey (',' :: lowerAscii st))) = _
        rw [dropWhile_pyWs_lower, tryKey_lower]
        have hcons : (',' :: lowerAscii st) = lowerAscii (',' :: st) := rfl
        rw [hcons, tryKey_lower]
        cases tryKey (st.dropWhile pyWs) with
        | some p => rfl
        | none =>
            rw [Option.map_none', orElse_step, orElse_step]

      · have hshl : Char.toLower sh ≠ ',' := by
          intro hc
          exact hsh ((toLower_eq_iff_low (by decide)).mp hc)
        have hnc1 : headIs ',' (vp.dropWhile pyWs) = false := by
          rw [hs]
          show (sh == ',') = false
          cases hb : sh == ','
          · rfl
          · exact absurd (eq_of_beq hb) hsh
        have hnc2 : headIs ',' ((lowerAscii vp).dropWhile pyWs) = false := by
          rw [dropWhile_pyWs_lower, hs]
          show (Char.toLower sh == ',') = false
          cases hb : Char.toLower sh == ','
          · rfl
          · exact absurd (eq_of_beq hb) hshl
        rw [matchKV_eq_of_head_not_comma hnc1, matchKV_eq_of_head_not_comma hnc2,
          dropWhile_pyWs_lower]
        exact tryKey_lower (vp.dropWhile pyWs)

lemma contains_bang_lower (l : Str) :
    (lowerAscii l).contains '!' = l.contains '!' := by
  cases hc : l.contains '!'
  · rw [← Bool.not_eq_true, List.elem_iff] at hc ⊢
    intro hmem
    unfold lowerAscii at hmem
    obtain ⟨y, hy, hyl⟩ := List.mem_map.mp hmem
    exact hc (((toLower_eq_iff_low (by decide)).mp hyl) ▸ hy)
  · rw [List.elem_iff] at hc ⊢
    unfold lowerAscii
    exact List.mem_map.mpr ⟨'!', hc, by decide⟩

lemma bangPre_lower (l : Str) : bangPre (lowerAscii l) = lowerAscii (bangPre l) := by
  unfold bangPre
  rw [contains_bang_lower]
  by_cases hb : (l.contains '!' = true)
  · rw [if_pos hb, if_pos hb]
    exact @takeWhile_lower (fun c => c != '!') (bne_toLower_low (by decide)) l
  · rw [if_neg hb, if_neg hb]

/-- Lowercasing a line does not change whether it parses, nor the length of
the parsed key. -/
lemma parse_lower_keylen (l : Str) :
    (parse_key_val_pair (lowerAscii l)).map (fun t => (t.1.length : Int)) =
      (parse_key_val_pair l).map (fun t => (t.1.length : Int)) := by
  have h1 : (parse_key_val_pair (lowerAscii l)).map (fun t => (t.1.length : Int)) =
      ((parse_key_val_pair (lowerAscii l)).map (fun t => t.1)).map
        (fun k => (k.length : Int)) := by
    cases parse_key_val_pair (lowerAscii l) with
    | none => rfl
    | some p => rfl
  have h2 : (parse_key_val_pair l).map (fun t => (t.1.length : Int)) =
      ((parse_key_val_pair l).map (fun t => t.1)).map
        (fun k => (k.length : Int)) := by
    cases parse_key_val_pair l with
    | none => rfl
    | some p => rfl
  rw [h1, h2, parse_map_fst, parse_map_fst, bangPre_lower, matchKV_lower]
  cases matchKV (bangPre l) with
  | none => rfl
  | some p =>
      show some ((lowerAscii p.1).length : Int) = some (p.1.length : Int)
      rw [show (lowerAscii p.1).length = p.1.length from List.length_map p.1 _]

/-! ## Leading-whitespace invariance and strip algebra -/

lemma ws_ne_bang {c : Char} (h : pyWs c = true) : (c != '!') = true := by
  cases hb : c == '!'
  · show (!(c == '!')) = true
    rw [hb]
    rfl
  · rw [eq_of_beq hb] at h
    exact absurd h (by decide)

lemma matchKV_ws_front {w : Str} (hw : WsRun w) (x : Str) :
    matchKV (w ++ x) = matchKV x := by
  unfold matchKV
  rw [dropWhile_append_all hw]

lemma contains_bang_ws_front {w l : Str} (hw : WsRun w) :
    (w ++ l).contains '!' = l.contains '!' := by
  cases hc : l.contains '!'
  · rw [← Bool.not_eq_true, List.elem_iff] at hc ⊢
    intro hmem
    rcases List.mem_append.mp hmem with hm | hm
    · have := ws_ne_bang (hw '!' hm)
      simp at this
    · exact hc hm
  · rw [List.elem_iff] at hc ⊢
    exact List.mem_append.mpr (Or.inr hc)

lemma parse_ws_front {w l : Str} (hw : WsRun w) :
    parse_key_val_pair (w ++ l) = parse_key_val_pair l := by
  unfold parse_key_val_pair
  rw [contains_bang_ws_front hw]
  by_cases hb : (l.contains '!' = true)
  · rw [if_pos hb, if_pos hb, if_pos hb, if_pos hb,
      takeWhile_append_all (fun c hc => ws_ne_bang (hw c hc)),
      matchKV_ws_front hw,
      dropWhile_append_all (fun c hc => ws_ne_bang (hw c hc))]
  · rw [if_neg hb, if_neg hb, if_neg hb, if_neg hb, matchKV_ws_front hw]

lemma parse_lstrip (l : Str) :
    parse_key_val_pair (l.dropWhile pyWs) = parse_key_val_pair l := by
  conv_rhs =>
    rw [show l = l.takeWhile pyWs ++ l.dropWhile pyWs from
      (List.takeWhile_append_dropWhile pyWs l).symm]
  rw [parse_ws_front (fun c hc => List.mem_takeWhile_imp hc)]

lemma dropWhile_idem (p : Char → Bool) (l : Str) :
    (l.dropWhile p).dropWhile p = l.dropWhile p := by
  induction l with
  | nil => rfl
  | cons c t ih =>
      rw [List.dropWhile_cons]
      by_cases hc : (p c = true)
      · rw [if_pos hc]; exact ih
      · rw [if_neg hc, List.dropWhile_cons,
          if_neg hc]

lemma rstripP_idem (p : Char → Bool) (l : Str) :
    rstripP p (rstripP p l) = rstripP p l := by
  unfold rstripP
  rw [List.reverse_reverse, dropWhile_idem]

lemma head_fails_of_dropWhile_self {p : Char → Bool} {c : Char} {t : Str}
    (h : (c :: t).dropWhile p = c :: t) : p c = false := by
  cases hc : p c
  · rfl
  · rw [List.dropWhile_cons, hc, if_pos rfl] at h
    have hlen := congrArg List.length h
    have hle : (t.dropWhile p).length ≤ t.length :=
      (List.dropWhile_suffix p).length_le
    simp only [List.length_cons] at hlen
    omega

lemma rstrip_dropWhile (p : Char → Bool) (y : Str) (hy : rstripP p y = y) :
    rstripP p (y.dropWhile p) = y.dropWhile p := by
  have hrev : y.reverse.dropWhile p = y.reverse := by
    have h2 := congrArg List.reverse hy
    unfold rstripP at h2
    rw [List.reverse_reverse] at h2
    exact h2
  cases hd : y.dropWhile p with
  | nil => rfl
  | cons c t =>
      have ha : y = y.takeWhile p ++ (c :: t) := by
        rw [← hd]
        exact (List.takeWhile_append_dropWhile p y).symm
      unfold rstripP
      cases hrc : (c :: t).reverse with
      | nil => simp at hrc
      | cons rc rt =>
          have hhead : p rc = false := by
            have h1 : y.reverse = rc :: (rt ++ (y.takeWhile p).reverse) := by
              conv_lhs => rw [ha]
              rw [List.reverse_append, hrc]
              simp
            have h2 := hrev
            rw [h1] at h2
            exact head_fails_of_dropWhile_self h2
          rw [List.dropWhile_cons, hhead]
          rw [if_neg (by simp)]
          rw [← hrc, List.reverse_reverse]

lemma stripWs_rstripped (l : Str) :
    stripWs (rstripP pyWs l) = (rstripP pyWs l).dropWhile pyWs := by
  unfold stripWs
  exact rstrip_dropWhile pyWs (rstripP pyWs l) (rstripP_idem pyWs l)

lemma stripWs_ws_front {w : Str} (hw : WsRun w) (x : Str) :
    stripWs (w ++ x) = stripWs x := by
  unfold stripWs
  rw [dropWhile_append_all hw]

lemma lstrip_rstrip_fixed {y : Str} (hy : y.dropWhile pyWs = y) :
    (rstripP pyWs y).dropWhile pyWs = rstripP pyWs y := by
  cases hd : rstripP pyWs y with
  | nil => rfl
  | cons c t =>
      obtain ⟨hdecomp, hws⟩ := rstripP_decomp pyWs y
      rw [hd] at hdecomp
      have hhead : pyWs c = false := by
        have h2 := hy
        rw [hdecomp, List.cons_append] at h2
        exact head_fails_of_dropWhile_self h2
      rw [List.dropWhile_cons, hhead]
      simp

lemma stripWs_idem (l : Str) : stripWs (stripWs l) = stripWs l := by
  show rstripP pyWs ((rstripP pyWs (l.dropWhile pyWs)).dropWhile pyWs) =
    rstripP pyWs (l.dropWhile pyWs)
  rw [lstrip_rstrip_fixed (dropWhile_idem pyWs l), rstripP_idem]

/-! ## Character provenance of formatted lines -/

lemma matchKV_key_mem {vp k r : Str} (h : matchKV vp = some (k, r)) :
    ∀ x ∈ k, x ∈ vp := by
  have base : ∀ u, tryKey u = some (k, r) → (∀ x ∈ u, x ∈ vp) →
      ∀ x ∈ k, x ∈ vp := by
    intro u hu hsub x hx
    obtain ⟨hk, -, -, -⟩ := tryKey_some hu
    rw [hk] at hx
    exact hsub x ((List.takeWhile_sublist keyChar).subset hx)
  have hsubs : ∀ x ∈ vp.dropWhile pyWs, x ∈ vp :=
    fun x hx => (List.dropWhile_suffix pyWs).subset hx
  unfold matchKV at h
  split at h
  next t heq =>
    rw [orElse_step] at h
    cases ho : tryKey (t.dropWhile pyWs) with
    | some p =>
        rw [ho] at h
        simp only [Option.some.injEq] at h
        subst h
        refine base _ ho ?_
        intro x hx
        have : x ∈ t := (List.dropWhile_suffix pyWs).subset hx
        exact hsubs x (heq ▸ List.mem_cons_of_mem ',' this)
    | none =>
        rw [ho] at h
        exact base _ h hsubs
  next => exact base _ h hsubs

lemma bangPre_subset {line : Str} : ∀ x ∈ bangPre line, x ∈ line := by
  intro x hx
  unfold bangPre at hx
  by_cases hb : (line.contains '!' = true)
  · rw [if_pos hb] at hx
    exact (List.takeWhile_sublist _).subset hx
  · rw [if_neg hb] at hx
    exact hx

/-- Characters of the parsed pieces come from the line (plus the space and
bang of the re-synthesised comment marker). -/
lemma parse_chars {line k v c : Str} (h : parse_key_val_pair line = some (k, v, c)) :
    (∀ x ∈ k, x ∈ line) ∧ (∀ x ∈ v, x ∈ line) ∧
      (∀ x ∈ c, x ∈ line ∨ x = ' ' ∨ x = '!') := by
  obtain ⟨-, hv, hc⟩ := parse_some_props h
  refine ⟨?_, ?_, ?_⟩
  · unfold parse_key_val_pair at h
    split at h
    next key rawValue heq =>
      simp only [Option.some.injEq, Prod.mk.injEq] at h
      obtain ⟨rfl, -, -⟩ := h
      intro x hx
      have := matchKV_key_mem heq x hx
      by_cases hb : (line.contains '!' = true)
      · rw [if_pos hb] at this
        exact (List.takeWhile_sublist _).subset this
      · rw [if_neg hb] at this
        exact this
    next => exact absurd h (by simp)
  · intro x hx
    exact bangPre_subset x (hv x hx)
  · intro x hx
    rw [hc] at hx
    unfold bangComment at hx
    by_cases hb : (line.contains '!' = true)
    · rw [if_pos hb] at hx
      rcases List.mem_append.mp hx with hm | hm
      · have hm2 : x ∈ [' ', '!', ' '] := hm
        simp only [List.mem_cons, List.not_mem_nil, or_false] at hm2
        rcases hm2 with rfl | rfl | rfl
        · right; left; rfl
        · right; right; rfl
        · right; left; rfl
      · left
        have := mem_stripWs hm
        have h2 := List.mem_of_mem_tail this
        exact (List.dropWhile_suffix _).subset h2
    · rw [if_neg hb] at hx
      cases hx

lemma mem_pyReplaceF {pat rep : Str} {x : Char} :
    ∀ {fuel : Nat} {s : Str}, x ∈ pyReplaceF pat rep fuel s → x ∈ s ∨ x ∈ rep := by
  intro fuel
  induction fuel with
  | zero =>
      intro s hx
      cases s with
      | nil => cases hx
      | cons c cs => exact Or.inl hx
  | succ n ih =>
      intro s hx
      cases s with
      | nil => cases hx
      | cons c cs =>
          unfold pyReplaceF at hx
          by_cases hp : (pat.isPrefixOf (c :: cs) = true)
          · rw [if_pos hp] at hx
            rcases List.mem_append.mp hx with hm | hm
            · exact Or.inr hm
            · rcases ih hm with hm2 | hm2
              · exact Or.inl (List.mem_of_mem_drop hm2)
              · exact Or.inr hm2
          · rw [if_neg hp] at hx
            rcases List.mem_cons.mp hx with rfl | hm
            · exact Or.inl (List.mem_cons_self x cs)
            · rcases ih hm with hm2 | hm2
              · exact Or.inl (List.mem_cons_of_mem c hm2)
              · exact Or.inr hm2

lemma mem_pyReplace {pat rep s : Str} {x : Char} (h : x ∈ pyReplace pat rep s) :
    x ∈ s ∨ x ∈ rep := by
  unfold pyReplace at h
  by_cases he : (pat.isEmpty = true)
  · rw [if_pos he] at h; exact Or.inl h
  · rw [if_neg he] at h; exact mem_pyReplaceF h

lemma splitOnChar_ne_nil (c : Char) (s : Str) : splitOnChar c s ≠ [] := by
  cases s with
  | nil => simp [splitOnChar]
  | cons y ys =>
      unfold splitOnChar
      by_cases hy : ((y == c) = true)
      · rw [if_pos hy]; simp
      · rw [if_neg hy]
        cases splitOnChar c ys with
        | nil => simp
        | cons h t => simp

lemma mem_splitOnChar {c : Char} {s : Str} :
    ∀ {p : Str}, p ∈ splitOnChar c s → ∀ {x : Char}, x ∈ p → x ∈ s := by
  induction s with
  | nil =>
      intro p hp x hx
      unfold splitOnChar at hp
      rcases List.mem_singleton.mp hp with rfl
      cases hx
  | cons y ys ih =>
      intro p hp x hx
      unfold splitOnChar at hp
      by_cases hy : ((y == c) = true)
      · rw [if_pos hy] at hp
        rcases List.mem_cons.mp hp with rfl | hp2
        · cases hx
        · exact List.mem_cons_of_mem y (ih hp2 hx)
      · rw [if_neg hy] at hp
        cases hrec : splitOnChar c ys with
        | nil => exact absurd hrec (splitOnChar_ne_nil c ys)
        | cons h t =>
            rw [hrec] at hp
            rcases List.mem_cons.mp hp with rfl | hp2
            · rcases List.mem_cons.mp hx with rfl | hx2
              · exact List.mem_cons_self x ys
              · exact List.mem_cons_of_mem y (ih (hrec ▸ List.mem_cons_self h t) hx2)
            · exact List.mem_cons_of_mem y (ih (hrec ▸ List.mem_cons_of_mem h hp2) hx)

lemma joinSep_cons_cons (sep a b : Str) (t : List Str) :
    joinSep sep (a :: b :: t) = a ++ sep ++ joinSep sep (b :: t) := rfl

lemma mem_joinSep {sep : Str} {ps : List Str} {x : Char}
    (h : x ∈ joinSep sep ps) : x ∈ sep ∨ ∃ p ∈ ps, x ∈ p := by
  induction ps with
  | nil => cases h
  | cons a t ih =>
      cases t with
      | nil => exact Or.inr ⟨a, by simp, h⟩
      | cons b t2 =>
          rw [joinSep_cons_cons] at h
          rcases List.mem_append.mp h with hm | hm
          · rcases List.mem_append.mp hm with hm2 | hm2
            · exact Or.inr ⟨a, by simp, hm2⟩
            · exact Or.inl hm2
          · rcases ih hm with hm2 | ⟨p, hp, hxp⟩
            · exact Or.inl hm2
            · exact Or.inr ⟨p, List.mem_cons_of_mem a hp, hxp⟩

lemma mem_commaNormalize {v : Str} {x : Char} (h : x ∈ commaNormalize v) :
    x ∈ v ∨ x = ',' ∨ x = ' ' := by
  unfold commaNormalize at h
  by_cases hc : (v.contains ',' = true)
  · rw [if_pos hc] at h
    rcases mem_joinSep h with hm | ⟨p, hp, hxp⟩
    · rcases List.mem_cons.mp hm with rfl | hm2
      · exact Or.inr (Or.inl rfl)
      · rcases List.mem_singleton.mp hm2 with rfl
        exact Or.inr (Or.inr rfl)
    · obtain ⟨p0, hp0, rfl⟩ := List.mem_map.mp hp
      exact Or.inl (mem_splitOnChar hp0 (mem_stripWs hxp))
  · rw [if_neg hc] at h
    exact Or.inl h

lemma mem_boolQuoteNormalize {v : Str} {x : Char} (h : x ∈ boolQuoteNormalize v) :
    x ∈ v ∨ x ∈ chars ".true." ∨ x ∈ chars ".false." ∨ x = '\'' := by
  unfold boolQuoteNormalize at h
  obtain ⟨y, hy, hyx⟩ := List.mem_map.mp h
  have hy2 : y ∈ v ∨ y ∈ chars ".true." ∨ y ∈ chars ".false." := by
    rcases mem_pyReplace hy with hy1 | hy1
    · rcases mem_pyReplace hy1 with hy2 | hy2
      · rcases mem_pyReplace hy2 with hy3 | hy3
        · rcases mem_pyReplace hy3 with hy4 | hy4
          · exact Or.inl hy4
          · exact Or.inr (Or.inl hy4)
        · exact Or.inr (Or.inl hy3)
      · exact Or.inr (Or.inr hy2)
    · exact Or.inr (Or.inr hy1)
  by_cases hq : (y == '"') = true
  · rw [if_pos hq] at hyx
    exact Or.inr (Or.inr (Or.inr hyx.symm))
  · rw [if_neg hq] at hyx
    subst hyx
    rcases hy2 with h2 | h2 | h2
    · exact Or.inl h2
    · exact Or.inr (Or.inl h2)
    · exact Or.inr (Or.inr (Or.inl h2))

/-! ## Emitted lines contain no line terminator -/

lemma mem_stripP {p : Char → Bool} {l : Str} {x : Char} (h : x ∈ stripP p l) :
    x ∈ l := by
  unfold stripP at h
  exact (List.dropWhile_suffix p).subset (mem_rstripP h)

lemma mem_procLine {raw : Str} {x : Char} (h : x ∈ procLine raw) : x ∈ raw := by
  unfold procLine at h
  exact mem_stripP (mem_rstripP h)

lemma sep_free_format_line {x fl : Str} {a bi : Int} {tc kc : Bool}
    (hf : format_line x a bi tc kc = some fl)
    (hx : ∀ c ∈ x, lineSep c = false) : ∀ c ∈ fl, lineSep c = false := by
  cases hp : parse_key_val_pair x with
  | none => rw [format_line, hp] at hf; cases hf
  | some t =>
      obtain ⟨k, v, c⟩ := t
      obtain ⟨hk, hv, hc⟩ := parse_chars hp
      rw [format_line_eq x a bi tc kc k v c hp] at hf
      injection hf with hf
      intro ch hch
      rw [← hf] at hch
      have hsp : ∀ n : Int, ch ∈ spaces n → lineSep ch = false := by
        intro n hn; rw [mem_spaces hn]; decide
      rcases List.mem_append.mp hch with h1 | hcmt
      rcases List.mem_append.mp h1 with h1 | hcma
      rcases List.mem_append.mp h1 with h1 | hval
      rcases List.mem_append.mp h1 with h1 | heqs
      rcases List.mem_append.mp h1 with h1 | hpad
      rcases List.mem_append.mp h1 with hind | hkey
      · exact hsp bi hind
      · exact hx ch (hk ch hkey)
      · exact hsp _ hpad
      · have : ch ∈ [' ', '=', ' '] := heqs
        have hor : ch = ' ' ∨ ch = '=' ∨ ch = ' ' := by
          simp only [List.mem_cons, List.not_mem_nil, or_false] at this
          exact this
        rcases hor with rfl | rfl | rfl <;> decide
      · rcases mem_boolQuoteNormalize hval with hm | hm | hm | hm
        · rcases mem_commaNormalize hm with hm2 | hm2 | hm2
          · exact hx ch (hv ch hm2)
          · rw [hm2]; decide
          · rw [hm2]; decide
        · have hall : ∀ y ∈ chars ".true.", lineSep y = false := by decide
          exact hall ch hm
        · have hall : ∀ y ∈ chars ".false.", lineSep y = false := by decide
          exact hall ch hm
        · rw [hm]; decide
      · by_cases htc : (tc = true)
        · rw [if_pos htc] at hcma
          rcases List.mem_singleton.mp hcma with rfl
          decide
        · rw [if_neg htc] at hcma; cases hcma
      · by_cases hkc : (kc = true)
        · rw [if_pos hkc] at hcmt
          rcases hc ch hcmt with hm | rfl | rfl
          · exact hx ch hm
          · decide
          · decide
        · rw [if_neg hkc] at hcmt; cases hcmt

/-- Every line emitted by one loop step is free of line terminators when
the input line is. -/
lemma processLine_sep_free {a bi : Int} {tc kc kw ib : Bool} {raw : Str}
    {ib2 : Bool} {outs : List (LKind × Str)}
    (h : processLine a bi tc kc kw ib raw = some (ib2, outs))
    (hraw : ∀ c ∈ raw, lineSep c = false) :
    ∀ q ∈ outs, ∀ c ∈ q.2, lineSep c = false := by
  have hline : ∀ c ∈ procLine raw, lineSep c = false :=
    fun c hc => hraw c (mem_procLine hc)
  have hstrip : ∀ c ∈ stripWs (procLine raw), lineSep c = false :=
    fun c hc => hline c (mem_stripWs hc)
  simp only [processLine] at h
  by_cases h1 : (headIs '&' (stripWs (procLine raw)) = true)
  · rw [if_pos h1] at h
    simp only [Option.some.injEq, Prod.mk.injEq] at h
    rw [← h.2]
    intro q hq
    rcases List.mem_singleton.mp hq with rfl
    intro c hc
    obtain ⟨y, hy, rfl⟩ := List.mem_map.mp hc
    rw [lineSep_toLower]
    exact hstrip y hy
  · rw [if_neg h1] at h
    by_cases h2 : (stripWs (procLine raw) = ['/'])
    · rw [if_pos h2] at h
      simp only [Option.some.injEq, Prod.mk.injEq] at h
      rw [← h.2]
      intro q hq
      have : q = (LKind.close, ['/']) ∨ q = (LKind.sep, []) := by
        simp only [List.mem_cons, List.not_mem_nil, or_false] at hq
        exact hq
      rcases this with rfl | rfl
      · intro c hc
        rcases List.mem_singleton.mp hc with rfl
        decide
      · intro c hc; cases hc
    · rw [if_neg h2] at h
      by_cases h3 : (procLine raw = [])
      · rw [if_pos h3] at h
        simp only [Option.some.injEq, Prod.mk.injEq] at h
        rw [← h.2]
        intro q hq
        by_cases hkwib : ((kw && ib) = true)
        · rw [if_pos hkwib] at hq
          rcases List.mem_singleton.mp hq with rfl
          intro c hc; cases hc
        · rw [if_neg hkwib] at hq; cases hq
      · rw [if_neg h3] at h
        by_cases h4 : (headIs '!' (stripWs (procLine raw)) = true)
        · rw [if_pos h4] at h
          simp only [Option.some.injEq, Prod.mk.injEq] at h
          rw [← h.2]
          intro q hq
          by_cases hkc : (kc = true)
          · rw [if_pos hkc] at hq
            rcases List.mem_singleton.mp hq with rfl
            intro c hc
            rcases List.mem_append.mp hc with hm | hm
            rcases List.mem_append.mp hm with hm2 | hm2
            · by_cases hib : (ib = true)
              · rw [if_pos hib] at hm2
                rw [mem_spaces hm2]; decide
              · rw [if_neg hib] at hm2; cases hm2
            · have : c ∈ ['!', ' '] := hm2
              have hor : c = '!' ∨ c = ' ' := by
                simp only [List.mem_cons, List.not_mem_nil, or_false] at this
                exact this
              rcases hor with rfl | rfl <;> decide
            · exact hstrip c (List.mem_of_mem_tail (mem_stripWs hm))
          · rw [if_neg hkc] at hq; cases hq
        · rw [if_neg h4] at h
          cases hf : format_line (procLine raw) a bi tc kc with
          | none => rw [hf] at h; cases h
          | some fl =>
              rw [hf] at h
              simp only [Option.map_some', Option.some.injEq, Prod.mk.injEq] at h
              rw [← h.2]
              intro q hq
              rcases List.mem_singleton.mp hq with rfl
              exact sep_free_format_line hf hline

/-! ## splitlines is a left inverse of the newline join -/

lemma splitlinesGo_cons_nonsep :
    ∀ (acc s : Str), ∀ c t, s = c :: t → lineSep c = false →
      splitlinesGo acc s = splitlinesGo (c :: acc) t := by
  intro acc s
  induction acc, s using splitlinesGo.induct with
  | case1 acc he => intro c t h hc; cases h
  | case2 acc he => intro c t h hc; cases h
  | case3 acc rest ih =>
      intro c t h hc
      injection h with h1 h2
      rw [← h1] at hc
      exact absurd hc (by decide)
  | case4 acc c0 rest hne hsep ih =>
      intro c t h hc
      injection h with h1 h2
      rw [← h1] at hc
      rw [hc] at hsep
      exact absurd hsep (by decide)
  | case5 acc c0 rest hne hsep ih =>
      intro c t h hc
      injection h with h1 h2
      subst h1; subst h2
      rw [splitlinesGo]
      · rw [if_neg hsep]
      · exact hne

lemma splitlinesGo_cons_newline :
    ∀ (acc s : Str), ∀ t, s = '\n' :: t →
      splitlinesGo acc s = acc.reverse :: splitlinesGo [] t := by
  intro acc s
  induction acc, s using splitlinesGo.induct with
  | case1 acc he => intro t h; cases h
  | case2 acc he => intro t h; cases h
  | case3 acc rest ih =>
      intro t h
      injection h with h1 h2
      exact absurd h1 (by decide)
  | case4 acc c0 rest hne hsep ih =>
      intro t h
      injection h with h1 h2
      subst h1; subst h2
      rw [splitlinesGo]
      · rw [if_pos hsep]
      · exact hne
  | case5 acc c0 rest hne hsep ih =>
      intro t h
      injection h with h1 h2
      rw [h1] at hsep
      exact absurd (by decide : lineSep '\n' = true) hsep

lemma splitlinesGo_line_append (l : Str) (hl : ∀ c ∈ l, lineSep c = false) :
    ∀ (acc rest : Str),
      splitlinesGo acc (l ++ '\n' :: rest) =
        (acc.reverse ++ l) :: splitlinesGo [] rest := by
  induction l with
  | nil =>
      intro acc rest
      rw [List.nil_append, List.append_nil]
      exact splitlinesGo_cons_newline acc _ rest rfl
  | cons c t ih =>
      intro acc rest
      rw [List.cons_append,
        splitlinesGo_cons_nonsep acc _ c (t ++ '\n' :: rest) rfl
          (hl c (List.mem_cons_self c t)),
        ih (fun x hx => hl x (List.mem_cons_of_mem c hx)) (c :: acc) rest]
      simp

lemma splitlinesGo_no_sep_total (l : Str) (hl : ∀ c ∈ l, lineSep c = false) :
    ∀ acc : Str,
      splitlinesGo acc l =
        if (acc.reverse ++ l).isEmpty then [] else [acc.reverse ++ l] := by
  induction l with
  | nil =>
      intro acc
      rw [splitlinesGo, List.append_nil]
      have hrev : acc.reverse.isEmpty = acc.isEmpty := by
        cases acc with
        | nil => rfl
        | cons a t => simp
      by_cases he : (acc.isEmpty = true)
      · rw [if_pos he, if_pos (by rw [hrev]; exact he)]
      · rw [if_neg he, if_neg (by rw [hrev]; exact he)]
  | cons c t ih =>
      intro acc
      rw [splitlinesGo_cons_nonsep acc _ c t rfl (hl c (List.mem_cons_self c t)),
        ih (fun x hx => hl x (List.mem_cons_of_mem c hx)) (c :: acc)]
      have h1 : (c :: acc).reverse ++ t = acc.reverse ++ c :: t := by simp
      rw [h1]

lemma splitlines_single (l : Str) (hl : ∀ c ∈ l, lineSep c = false) :
    splitlines l = if l.isEmpty then [] else [l] := by
  unfold splitlines
  rw [splitlinesGo_no_sep_total l hl []]
  rfl

lemma getLast?_decomp {α : Type} {l : List α} {x : α} (h : l.getLast? = some x) :
    l = l.dropLast ++ [x] := by
  induction l with
  | nil => cases h
  | cons a t ih =>
      cases t with
      | nil =>
          simp only [List.getLast?_singleton, Option.some.injEq] at h
          rw [h]
          rfl
      | cons b t2 =>
          rw [List.getLast?_cons_cons] at h
          have := ih h
          rw [List.dropLast_cons₂, List.cons_append, ← this]

lemma splitlines_joinSep (ls : List Str)
    (h : ∀ l ∈ ls, ∀ c ∈ l, lineSep c = false) :
    splitlines (joinSep ['\n'] ls) =
      if ls.getLast? = some [] then ls.dropLast else ls := by
  induction ls with
  | nil => rw [if_neg (by simp)]; rfl
  | cons x t ih =>
      cases t with
      | nil =>
          show splitlines x = _
          rw [splitlines_single x (h x (List.mem_cons_self x []))]
          by_cases hx : (x.isEmpty = true)
          · rw [List.isEmpty_iff] at hx
            subst hx
            rw [if_pos (by rfl), if_pos (by rfl)]
            rfl
          · rw [List.isEmpty_iff] at hx
            rw [if_neg (by rw [List.isEmpty_iff]; exact hx),
              if_neg (by simp only [List.getLast?_singleton, Option.some.injEq]; exact hx)]
      | cons y t2 =>
          have hx : ∀ c ∈ x, lineSep c = false := h x (List.mem_cons_self x _)
          have hrest : ∀ l ∈ y :: t2, ∀ c ∈ l, lineSep c = false :=
            fun l hl => h l (List.mem_cons_of_mem x hl)
          rw [joinSep_cons_cons]
          unfold splitlines
          rw [List.append_assoc, List.singleton_append,
            splitlinesGo_line_append x hx [] (joinSep ['\n'] (y :: t2))]
          have ihr := ih hrest
          unfold splitlines at ihr
          rw [ihr]
          rw [List.getLast?_cons_cons]
          by_cases hlast : ((y :: t2).getLast? = some [])
          · rw [if_pos hlast, if_pos hlast, List.dropLast_cons₂]
            simp
          · rw [if_neg hlast, if_neg hlast]
            simp

/-! ## Key-length bookkeeping across one formatting pass -/

lemma lineKeyLen_of_key_eq {a b : Str}
    (h : (parse_key_val_pair a).map (fun t => t.1) =
      (parse_key_val_pair b).map (fun t => t.1)) :
    lineKeyLen a = lineKeyLen b := by
  unfold lineKeyLen
  have ha : (parse_key_val_pair a).map (fun t => (t.1.length : Int)) =
      ((parse_key_val_pair a).map (fun t => t.1)).map (fun k => (k.length : Int)) := by
    cases parse_key_val_pair a with
    | none => rfl
    | some p => rfl
  have hb : (parse_key_val_pair b).map (fun t => (t.1.length : Int)) =
      ((parse_key_val_pair b).map (fun t => t.1)).map (fun k => (k.length : Int)) := by
    cases parse_key_val_pair b with
    | none => rfl
    | some p => rfl
  rw [ha, hb, h]

lemma lineKeyLen_procLine {raw : Str} (h : ∀ c ∈ raw, lineSep c = false) :
    lineKeyLen (procLine raw) = lineKeyLen raw :=
  lineKeyLen_of_key_eq (parse_procLine_key h)

lemma parse_nil_none : parse_key_val_pair [] = none := by decide

lemma parse_slash_none : parse_key_val_pair ['/'] = none := by decide

lemma parse_bang_head (rest : Str) : parse_key_val_pair ('!' :: rest) = none := by
  unfold parse_key_val_pair
  have hc : (('!' :: rest).contains '!') = true := by
    rw [List.contains_cons]
    simp
  rw [if_pos hc, List.takeWhile_cons, if_neg (by decide)]
  have hm : matchKV [] = none := by decide
  rw [hm]

lemma find_longest_key_eq_fold (content : Str) :
    find_longest_key content =
      ((splitlines content).filterMap lineKeyLen).foldl max (-1) := by
  unfold find_longest_key
  rw [find_fold_aux]
  rfl

/-! ## The loop on the lines it has itself emitted -/

lemma processLine_slash (a bi : Int) (tc kc kw ib : Bool) :
    processLine a bi tc kc kw ib ['/'] =
      some (false, [(.close, ['/']), (.sep, [])]) := by
  simp only [processLine]
  have h0 : procLine ['/'] = ['/'] := by decide
  rw [h0]
  have h1 : stripWs ['/'] = ['/'] := by decide
  rw [h1, if_neg (by decide), if_pos rfl]

lemma processLine_empty (a bi : Int) (tc kc kw ib : Bool) :
    processLine a bi tc kc kw ib [] =
      some (ib, if kw && ib then [(.blank, [])] else []) := by
  simp only [processLine]
  have h0 : procLine [] = [] := by decide
  rw [h0]
  have h1 : stripWs ([] : Str) = [] := by decide
  rw [h1, if_neg (by decide), if_neg (by decide), if_pos rfl]

lemma nmlRun_singleton (a bi : Int) (tc kc kw : Bool) (ib : Bool) (l : Str) :
    nmlRun a bi tc kc kw ib [l] = processLine a bi tc kc kw ib l := by
  unfold nmlRun
  cases hp : processLine a bi tc kc kw ib l with
  | none => simp
  | some p =>
      obtain ⟨ib1, out⟩ := p
      simp [nmlRun]

lemma nmlRun_cons (a bi : Int) (tc kc kw : Bool) (ib : Bool) (x : Str)
    (rest : List Str) :
    nmlRun a bi tc kc kw ib (x :: rest) =
      (processLine a bi tc kc kw ib x).bind (fun p =>
        (nmlRun a bi tc kc kw p.1 rest).map (fun q => (q.1, p.2 ++ q.2))) := by
  rw [nmlRun]
  cases hp : processLine a bi tc kc kw ib x with
  | none => simp
  | some p =>
      obtain ⟨ib1, out⟩ := p
      simp only [Option.bind_eq_bind, Option.some_bind]
      cases hr : nmlRun a bi tc kc kw ib1 rest with
      | none => simp
      | some q =>
          obtain ⟨ibf, o2⟩ := q
          simp

lemma nmlRun_append (a bi : Int) (tc kc kw : Bool) (l1 l2 : List Str) :
    ∀ ib, nmlRun a bi tc kc kw ib (l1 ++ l2) =
      (nmlRun a bi tc kc kw ib l1).bind (fun p =>
        (nmlRun a bi tc kc kw p.1 l2).map (fun q => (q.1, p.2 ++ q.2))) := by
  induction l1 with
  | nil =>
      intro ib
      rw [List.nil_append,
        show nmlRun a bi tc kc kw ib [] = some (ib, []) from rfl,
        Option.some_bind]
      cases hr : nmlRun a bi tc kc kw ib l2 with
      | none => simp
      | some q => obtain ⟨ibf, o⟩ := q; simp
  | cons x t ih =>
      intro ib
      rw [List.cons_append, nmlRun_cons, nmlRun_cons]
      cases hp : processLine a bi tc kc kw ib x with
      | none => simp
      | some p =>
          obtain ⟨ib1, out⟩ := p
          simp only [Option.some_bind]
          rw [ih ib1]
          cases hr : nmlRun a bi tc kc kw ib1 t with
          | none => simp
          | some q =>
              obtain ⟨ib2, o2⟩ := q
              simp only [Option.some_bind, Option.bind_eq_bind]
              cases hs : nmlRun a bi tc kc kw ib2 l2 with
              | none =>
                  simp only [Option.map_some', Option.some_bind]
                  rw [hs]
                  rfl
              | some r =>
                  obtain ⟨ib3, o3⟩ := r
                  simp only [Option.map_some', Option.some_bind]
                  rw [hs]
                  simp [List.append_assoc]

/-! ## Re-reading the emitted header and comment lines -/

lemma rstripP_append (p : Char → Bool) (a b : Str) :
    rstripP p (a ++ b) =
      if rstripP p b = [] then rstripP p a else a ++ rstripP p b := by
  unfold rstripP
  rw [List.reverse_append, List.dropWhile_append]
  by_cases hb : ((b.reverse.dropWhile p).isEmpty = true)
  · rw [if_pos hb]
    rw [if_pos (by rw [List.isEmpty_iff] at hb; rw [hb]; rfl)]
  · rw [if_neg hb]
    rw [if_neg (by
      intro hc
      rw [List.isEmpty_iff] at hb
      exact hb (by
        have := congrArg List.reverse hc
        rw [List.reverse_reverse] at this
        rw [this]
        rfl))]
    rw [List.reverse_append, List.reverse_reverse]

lemma rstripP_lower {p : Char → Bool} (hp : ∀ c, p (Char.toLower c) = p c)
    (l : Str) : rstripP p (lowerAscii l) = lowerAscii (rstripP p l) := by
  have hrev : ∀ x : Str, (lowerAscii x).reverse = lowerAscii x.reverse := by
    intro x
    unfold lowerAscii
    simp
  unfold rstripP
  rw [hrev, dropWhile_lower hp, hrev]

lemma stripWs_lower (l : Str) :
    stripWs (lowerAscii l) = lowerAscii (stripWs l) := by
  unfold stripWs
  rw [dropWhile_pyWs_lower, rstripP_lower pyWs_toLower]

lemma lowerAscii_idem (l : Str) : lowerAscii (lowerAscii l) = lowerAscii l := by
  unfold lowerAscii
  rw [List.map_map]
  exact List.map_congr_left (fun c _ => toLower_idem c)

lemma no_nl_of_no_sep {l : Str} (h : ∀ c ∈ l, lineSep c = false) :
    ∀ c ∈ l, (c == '\n') = false := by
  intro c hc
  cases hb : (c == '\n')
  · rfl
  · have := h c hc
    rw [eq_of_beq hb] at this
    exact absurd this (by decide)

/-- A line with no newline characters that is already right-stripped is a
fixed point of the per-line preprocessing. -/
lemma procLine_fixed {l : Str} (hnl : ∀ c ∈ l, (c == '\n') = false)
    (hr : rstripP pyWs l = l) : procLine l = l := by
  unfold procLine
  rw [stripP_id hnl, hr]

lemma rstripP_stripWs (l : Str) : rstripP pyWs (stripWs l) = stripWs l := by
  unfold stripWs
  rw [rstripP_idem]

lemma chunk_header {a bi : Int} {tc kc kw : Bool} {raw : Str}
    (hsep : ∀ c ∈ raw, lineSep c = false)
    (h1 : headIs '&' (stripWs (procLine raw)) = true) (ib : Bool) :
    nmlRun a bi tc kc kw ib [lowerAscii (stripWs (procLine raw))] =
      some (true, [(.header, lowerAscii (stripWs (procLine raw)))]) := by
  have hsepS : ∀ c ∈ stripWs (procLine raw), lineSep c = false :=
    fun c hc => hsep c (mem_procLine (mem_stripWs hc))
  have hsepL : ∀ c ∈ lowerAscii (stripWs (procLine raw)), lineSep c = false := by
    intro c hc
    obtain ⟨y, hy, rfl⟩ := List.mem_map.mp hc
    rw [lineSep_toLower]
    exact hsepS y hy
  have hrs : rstripP pyWs (lowerAscii (stripWs (procLine raw))) =
      lowerAscii (stripWs (procLine raw)) := by
    rw [rstripP_lower pyWs_toLower, rstripP_stripWs]
  have hproc : procLine (lowerAscii (stripWs (procLine raw))) =
      lowerAscii (stripWs (procLine raw)) :=
    procLine_fixed (no_nl_of_no_sep hsepL) hrs
  have hstrip : stripWs (lowerAscii (stripWs (procLine raw))) =
      lowerAscii (stripWs (procLine raw)) := by
    rw [stripWs_lower, stripWs_idem]
  rw [nmlRun_singleton]
  simp only [processLine]
  rw [hproc, hstrip]
  rw [if_pos (by rw [headIs_lower_low (by decide)]; exact h1)]
  rw [lowerAscii_idem]

lemma dropWhile_eq_self_of_stripWs {t : Str} (ht : stripWs t = t) :
    t.dropWhile pyWs = t := by
  have hsuff : t.dropWhile pyWs <:+ t := List.dropWhile_suffix pyWs
  refine List.IsSuffix.eq_of_length hsuff ?_
  have h1 : t.length ≤ (t.dropWhile pyWs).length := by
    conv_lhs => rw [← ht]
    unfold stripWs rstripP
    calc ((t.dropWhile pyWs).reverse.dropWhile pyWs).reverse.length
        = ((t.dropWhile pyWs).reverse.dropWhile pyWs).length := by
          rw [List.length_reverse]
      _ ≤ (t.dropWhile pyWs).reverse.length := (List.dropWhile_suffix pyWs).length_le
      _ = (t.dropWhile pyWs).length := by rw [List.length_reverse]
  have h2 : (t.dropWhile pyWs).length ≤ t.length := hsuff.length_le
  omega

lemma rstripP_eq_self_of_stripWs {t : Str} (ht : stripWs t = t) :
    rstripP pyWs t = t := by
  conv_lhs => rw [← ht]
  rw [rstripP_stripWs, ht]

lemma chunk_comment {a bi : Int} {tc kw : Bool} (ib : Bool) {t : Str}
    (ht : stripWs t = t) (hsep : ∀ c ∈ t, lineSep c = false) :
    nmlRun a bi tc true kw ib
      [(if ib = true then spaces bi else []) ++ chars "! " ++ t] =
      some (ib, [(.comment, (if ib = true then spaces bi else []) ++ chars "! " ++ t)]) := by
  have hImem : ∀ x ∈ (if ib = true then spaces bi else []), x = ' ' := by
    intro x hx
    by_cases hib : (ib = true)
    · rw [if_pos hib] at hx; exact mem_spaces hx
    · rw [if_neg hib] at hx; cases hx
  have hIws : WsRun (if ib = true then spaces bi else []) := by
    intro x hx
    rw [hImem x hx]
    decide
  have hrt : rstripP pyWs t = t := rstripP_eq_self_of_stripWs ht
  cases t with
  | nil =>
      rw [List.append_nil, nmlRun_singleton]
      simp only [processLine]
      have hb : rstripP pyWs (chars "! ") = ['!'] := by decide
      have hrs : rstripP pyWs ((if ib = true then spaces bi else []) ++ chars "! ") =
          (if ib = true then spaces bi else []) ++ ['!'] := by
        rw [rstripP_append, hb, if_neg (by simp)]
      have hnl : ∀ c ∈ (if ib = true then spaces bi else []) ++ chars "! ",
          (c == '\n') = false := by
        intro c hc
        rcases List.mem_append.mp hc with hm | hm
        · rw [hImem c hm]; decide
        · have : c ∈ ['!', ' '] := hm
          simp only [List.mem_cons, List.not_mem_nil, or_false] at this
          rcases this with rfl | rfl <;> decide
      have hproc : procLine ((if ib = true then spaces bi else []) ++ chars "! ") =
          (if ib = true then spaces bi else []) ++ ['!'] := by
        unfold procLine
        rw [stripP_id hnl, hrs]
      rw [hproc]
      have hstrip : stripWs ((if ib = true then spaces bi else []) ++ ['!']) =
          ['!'] := by
        rw [stripWs_ws_front hIws]
        decide
      rw [hstrip]
      rw [if_neg (by decide), if_neg (by decide), if_neg (by simp),
        if_pos (by decide), if_pos trivial]
      have htail : stripWs ((['!'] : Str).tail) = [] := by decide
      rw [htail, List.append_nil]
  | cons y t2 =>
      have hdrop : (y :: t2).dropWhile pyWs = y :: t2 :=
        dropWhile_eq_self_of_stripWs ht
      have hnl : ∀ c ∈ (if ib = true then spaces bi else []) ++ chars "! " ++ (y :: t2),
          (c == '\n') = false := by
        intro c hc
        rcases List.mem_append.mp hc with hm | hm
        · rcases List.mem_append.mp hm with hm2 | hm2
          · rw [hImem c hm2]; decide
          · have : c ∈ ['!', ' '] := hm2
            simp only [List.mem_cons, List.not_mem_nil, or_false] at this
            rcases this with rfl | rfl <;> decide
        · exact no_nl_of_no_sep hsep c hm
      have hrs : rstripP pyWs
          ((if ib = true then spaces bi else []) ++ chars "! " ++ (y :: t2)) =
          (if ib = true then spaces bi else []) ++ chars "! " ++ (y :: t2) := by
        rw [rstripP_append, hrt, if_neg (by simp)]
      have hproc : procLine
          ((if ib = true then spaces bi else []) ++ chars "! " ++ (y :: t2)) =
          (if ib = true then spaces bi else []) ++ chars "! " ++ (y :: t2) :=
        procLine_fixed hnl hrs
      have hstrip : stripWs
          ((if ib = true then spaces bi else []) ++ chars "! " ++ (y :: t2)) =
          '!' :: ' ' :: (y :: t2) := by
        rw [List.append_assoc, stripWs_ws_front hIws]
        show rstripP pyWs (('!' :: ' ' :: (y :: t2)).dropWhile pyWs) = _
        rw [List.dropWhile_cons, if_neg (by decide)]
        show rstripP pyWs (['!', ' '] ++ (y :: t2)) = _
        rw [rstripP_append, hrt, if_neg (by simp)]
        rfl
      rw [nmlRun_singleton]
      simp only [processLine]
      rw [hproc, hstrip]
      have hA : headIs '&' ('!' :: ' ' :: y :: t2) = false := rfl
      have hB : headIs '!' ('!' :: ' ' :: y :: t2) = true := rfl
      rw [if_neg (by rw [hA]; exact Bool.false_ne_true),
        if_neg (by intro h; injection h with h1 h2; exact absurd h1 (by decide)),
        if_neg (by simp), if_pos hB, if_pos trivial]
      have htail : stripWs (('!' :: ' ' :: (y :: t2)).tail) = y :: t2 := by
        show stripWs ([' '] ++ (y :: t2)) = y :: t2
        rw [stripWs_ws_front (by intro x hx; rcases List.mem_singleton.mp hx with rfl; decide),
          ht]
      rw [htail]

/-! ## Key lengths are preserved by one formatting pass -/

lemma parse_ws_bang {w rest : Str} (hw : WsRun w) :
    parse_key_val_pair (w ++ '!' :: rest) = none := by
  rw [parse_ws_front hw]
  exact parse_bang_head rest

lemma stripWs_procLine (raw : Str) :
    stripWs (procLine raw) = (procLine raw).dropWhile pyWs := by
  unfold procLine
  exact stripWs_rstripped _

lemma parse_stripWs_procLine (raw : Str) :
    parse_key_val_pair (procLine raw) =
      parse_key_val_pair (stripWs (procLine raw)) := by
  rw [stripWs_procLine, parse_lstrip]

lemma header_keylen {raw : Str} (hsep : ∀ c ∈ raw, lineSep c = false) :
    lineKeyLen (lowerAscii (stripWs (procLine raw))) = lineKeyLen raw := by
  have h1 : lineKeyLen (lowerAscii (stripWs (procLine raw))) =
      lineKeyLen (stripWs (procLine raw)) := parse_lower_keylen _
  rw [h1]
  have h2 : lineKeyLen (stripWs (procLine raw)) = lineKeyLen (procLine raw) := by
    unfold lineKeyLen
    rw [parse_stripWs_procLine]
  rw [h2, lineKeyLen_procLine hsep]

lemma close_keylen {raw : Str} (hsep : ∀ c ∈ raw, lineSep c = false)
    (h : stripWs (procLine raw) = ['/']) : lineKeyLen raw = none := by
  rw [← lineKeyLen_procLine hsep]
  unfold lineKeyLen
  rw [parse_stripWs_procLine, h, parse_slash_none]
  rfl

lemma comment_keylen {raw : Str} (hsep : ∀ c ∈ raw, lineSep c = false)
    (h : headIs '!' (stripWs (procLine raw)) = true) : lineKeyLen raw = none := by
  rw [← lineKeyLen_procLine hsep]
  unfold lineKeyLen
  rw [parse_stripWs_procLine]
  cases hd : stripWs (procLine raw) with
  | nil => rw [hd] at h; cases h
  | cons c rest =>
      rw [hd] at h
      have hc : c = '!' := eq_of_beq h
      rw [hc, parse_bang_head]
      rfl

lemma blank_keylen {raw : Str} (hsep : ∀ c ∈ raw, lineSep c = false)
    (h : procLine raw = []) : lineKeyLen raw = none := by
  rw [← lineKeyLen_procLine hsep, h]
  unfold lineKeyLen
  rw [parse_nil_none]
  rfl

lemma emitted_comment_keylen (bi : Int) (ib : Bool) (t : Str) :
    lineKeyLen ((if ib = true then spaces bi else []) ++ chars "! " ++ t) = none := by
  have hIws : WsRun (if ib = true then spaces bi else []) := by
    intro x hx
    by_cases hib : (ib = true)
    · rw [if_pos hib] at hx; rw [mem_spaces hx]; decide
    · rw [if_neg hib] at hx; cases hx
  unfold lineKeyLen
  rw [List.append_assoc,
    show chars "! " ++ t = '!' :: (' ' :: t) from rfl,
    parse_ws_bang hIws]
  rfl

lemma format_line_shape {x fl : Str} {a bi : Int} {tc kc : Bool}
    (hf : format_line x a bi tc kc = some fl) :
    ∃ k v c rest, parse_key_val_pair x = some (k, v, c) ∧
      fl = spaces bi ++ k ++ ' ' :: rest ∧ (∀ ch ∈ k, keyChar ch = true) := by
  cases hp : parse_key_val_pair x with
  | none => rw [format_line, hp] at hf; cases hf
  | some t =>
      obtain ⟨k, v, c⟩ := t
      rw [format_line_eq x a bi tc kc k v c hp] at hf
      injection hf with hf
      have h1 : (1 : Int) ≤ max (a - k.length - 1) 1 := le_max_right _ _
      refine ⟨k, v, c,
        spaces (max (a - k.length - 1) 1 - 1) ++ (chars " = "
          ++ boolQuoteNormalize (commaNormalize v)
          ++ ((if tc then [','] else []) ++ (if kc then c else []))), rfl, ?_,
        ((parse_some_props hp).1.2)⟩
      rw [← hf, spaces_succ h1]
      simp [List.append_assoc]

lemma key_unique_of_shapes {bi : Int} {k1 k2 r1 r2 : Str}
    (h : spaces bi ++ k1 ++ ' ' :: r1 = spaces bi ++ k2 ++ ' ' :: r2)
    (hk1 : ∀ c ∈ k1, keyChar c = true) (hk2 : ∀ c ∈ k2, keyChar c = true) :
    k1 = k2 := by
  rw [List.append_assoc, List.append_assoc] at h
  have h2 := List.append_cancel_left h
  have e1 : (k1 ++ ' ' :: r1).takeWhile keyChar = k1 :=
    takeWhile_append_stop hk1 (by decide)
  have e2 : (k2 ++ ' ' :: r2).takeWhile keyChar = k2 :=
    takeWhile_append_stop hk2 (by decide)
  rw [h2, e2] at e1
  exact e1.symm

lemma assign_keylen {x fl : Str} {a bi : Int} {tc kc : Bool}
    (hf : format_line x a bi tc kc = some fl)
    (hf2 : format_line (procLine fl) a bi tc kc = some fl)
    (hflsep : ∀ c ∈ fl, lineSep c = false) :
    lineKeyLen fl = lineKeyLen x := by
  obtain ⟨k1, v1, c1, r1, hp1, hsh1, hkc1⟩ := format_line_shape hf
  obtain ⟨k2, v2, c2, r2, hp2, hsh2, hkc2⟩ := format_line_shape hf2
  have hk : k2 = k1 := key_unique_of_shapes (hsh2.symm.trans hsh1) hkc2 hkc1
  rw [← lineKeyLen_procLine hflsep]
  unfold lineKeyLen
  rw [hp1, hp2, Option.map_some', Option.map_some', hk]

lemma filterMap_singleton {α β : Type} (f : α → Option β) (x : α) :
    ([x].filterMap f) = (f x).toList := by
  cases h : f x <;> simp [h]

lemma chunk_close (a bi : Int) (tc kc kw ib : Bool) :
    nmlRun a bi tc kc kw ib [['/'], []] =
      some (false, [(.close, ['/']), (.sep, [])]) := by
  rw [show ([['/'], []] : List Str) = ['/'] :: [[]] from rfl, nmlRun_cons,
    processLine_slash, Option.some_bind, nmlRun_singleton, processLine_empty]
  simp

set_option maxHeartbeats 2000000 in
/-- The core of the amended idempotence claim: on stable input lines, the
loop run again over its own output reproduces that output line for line,
ends in the same block state, and exposes the same key lengths to the
scanner. -/
lemma nml_reproduce (a bi : Int) (tc kc kw : Bool) :
    ∀ (lines : List Str) (ib ibf : Bool) (touts : List (LKind × Str)),
    (∀ l ∈ lines, ∀ c ∈ l, lineSep c = false) →
    (∀ l ∈ lines, assignStable a bi tc kc kw l = true) →
    nmlRun a bi tc kc kw ib lines = some (ibf, touts) →
    (∃ touts2, nmlRun a bi tc kc kw ib (touts.map Prod.snd) = some (ibf, touts2) ∧
        touts2.map Prod.snd = touts.map Prod.snd) ∧
    (touts.map Prod.snd).filterMap lineKeyLen = lines.filterMap lineKeyLen ∧
    (∀ e ∈ touts.map Prod.snd, ∀ c ∈ e, lineSep c = false) := by
  intro lines
  induction lines with
  | nil =>
      intro ib ibf touts hsep hst h
      rw [show nmlRun a bi tc kc kw ib [] = some (ib, []) from rfl] at h
      simp only [Option.some.injEq, Prod.mk.injEq] at h
      obtain ⟨rfl, rfl⟩ := h
      exact ⟨⟨[], rfl, rfl⟩, rfl, by intro e he; cases he⟩
  | cons l rest ih =>
      intro ib ibf touts hsep hst h
      rw [nmlRun_cons] at h
      cases hp : processLine a bi tc kc kw ib l with
      | none => rw [hp] at h; cases h
      | some p =>
          obtain ⟨ib1, out⟩ := p
          rw [hp, Option.some_bind] at h
          cases hr : nmlRun a bi tc kc kw ib1 rest with
          | none => rw [hr] at h; cases h
          | some q =>
              obtain ⟨ib2, touts1⟩ := q
              rw [hr, Option.map_some'] at h
              simp only [Option.some.injEq, Prod.mk.injEq] at h
              obtain ⟨rfl, rfl⟩ := h
              obtain ⟨⟨touts2, hrep2, hmap2⟩, hkl2, hsf2⟩ :=
                ih ib1 ib2 touts1
                  (fun x hx => hsep x (List.mem_cons_of_mem l hx))
                  (fun x hx => hst x (List.mem_cons_of_mem l hx)) hr
              have hsepl : ∀ c ∈ l, lineSep c = false :=
                hsep l (List.mem_cons_self l rest)
              have hstl : assignStable a bi tc kc kw l = true :=
                hst l (List.mem_cons_self l rest)
              have hsepline : ∀ c ∈ procLine l, lineSep c = false :=
                fun c hc => hsepl c (mem_procLine hc)
              suffices hch : ∃ outR,
                  nmlRun a bi tc kc kw ib (out.map Prod.snd) = some (ib1, outR) ∧
                  outR.map Prod.snd = out.map Prod.snd ∧
                  (out.map Prod.snd).filterMap lineKeyLen = (lineKeyLen l).toList ∧
                  (∀ e ∈ out.map Prod.snd, ∀ c ∈ e, lineSep c = false) by
                obtain ⟨outR, hrun1, hmap1, hkl1, hsf1⟩ := hch
                refine ⟨⟨outR ++ touts2, ?_, ?_⟩, ?_, ?_⟩
                · rw [List.map_append, nmlRun_append, hrun1, Option.some_bind,
                    hrep2, Option.map_some']
                · rw [List.map_append, List.map_append, hmap1, hmap2]
                · rw [List.map_append, List.filterMap_append, hkl1, hkl2,
                    List.filterMap_cons]
                  cases lineKeyLen l <;> simp
                · intro e he
                  rw [List.map_append] at he
                  rcases List.mem_append.mp he with hm | hm
                  · exact hsf1 e hm
                  · exact hsf2 e hm
              simp only [processLine] at hp
              by_cases h1 : (headIs '&' (stripWs (procLine l)) = true)
              · rw [if_pos h1] at hp
                simp only [Option.some.injEq, Prod.mk.injEq] at hp
                obtain ⟨rfl, rfl⟩ := hp
                refine ⟨[(.header, lowerAscii (stripWs (procLine l)))],
                  chunk_header hsepl h1 ib, rfl, ?_, ?_⟩
                · rw [show ([(LKind.header, lowerAscii (stripWs (procLine l)))].map
                      Prod.snd) = [lowerAscii (stripWs (procLine l))] from rfl,
                    filterMap_singleton, header_keylen hsepl]
                · intro e he
                  rcases List.mem_singleton.mp he with rfl
                  intro c hc
                  obtain ⟨y, hy, rfl⟩ := List.mem_map.mp hc
                  rw [lineSep_toLower]
                  exact hsepl y (mem_procLine (mem_stripWs hy))
              · rw [if_neg h1] at hp
                by_cases h2 : (stripWs (procLine l) = ['/'])
                · rw [if_pos h2] at hp
                  simp only [Option.some.injEq, Prod.mk.injEq] at hp
                  obtain ⟨rfl, rfl⟩ := hp
                  refine ⟨[(.close, ['/']), (.sep, [])],
                    chunk_close a bi tc kc kw ib, rfl, ?_, ?_⟩
                  · rw [show ([(LKind.close, ['/']), (LKind.sep, [])].map
                        Prod.snd) = [['/'], []] from rfl]
                    rw [close_keylen hsepl h2]
                    decide
                  · intro e he
                    have : e = ['/'] ∨ e = [] := by
                      simp only [List.map_cons, List.map_nil, List.mem_cons,
                        List.not_mem_nil, or_false] at he
                      exact he
                    rcases this with rfl | rfl
                    · intro c hc
                      rcases List.mem_singleton.mp hc with rfl
                      decide
                    · intro c hc; cases hc
                · rw [if_neg h2] at hp
                  by_cases h3 : (procLine l = [])
                  · rw [if_pos h3] at hp
                    simp only [Option.some.injEq, Prod.mk.injEq] at hp
                    obtain ⟨rfl, rfl⟩ := hp
                    by_cases hkw : ((kw && ib) = true)
                    · rw [if_pos hkw]
                      refine ⟨[(.blank, [])], ?_, rfl, ?_, ?_⟩
                      · rw [show ([(LKind.blank, [])].map Prod.snd) = [([] : Str)]
                          from rfl, nmlRun_singleton, processLine_empty, if_pos hkw]
                      · rw [show ([(LKind.blank, [])].map Prod.snd) = [([] : Str)]
                          from rfl, filterMap_singleton, blank_keylen hsepl h3]
                        decide
                      · intro e he
                        rcases List.mem_singleton.mp he with rfl
                        intro c hc; cases hc
                    · rw [if_neg hkw]
                      refine ⟨[], rfl, rfl, ?_, ?_⟩
                      · rw [show (([] : List (LKind × Str)).map Prod.snd) =
                          ([] : List Str) from rfl, blank_keylen hsepl h3]
                        rfl
                      · intro e he; cases he
                  · rw [if_neg h3] at hp
                    by_cases h4 : (headIs '!' (stripWs (procLine l)) = true)
                    · rw [if_pos h4] at hp
                      simp only [Option.some.injEq, Prod.mk.injEq] at hp
                      obtain ⟨rfl, rfl⟩ := hp
                      cases hkc : kc with
                      | true =>
                          subst hkc
                          rw [if_pos rfl]
                          have ht : stripWs (stripWs (List.tail
                              (stripWs (procLine l)))) =
                              stripWs (List.tail (stripWs (procLine l))) :=
                            stripWs_idem _
                          have hsept : ∀ c ∈ stripWs (List.tail
                              (stripWs (procLine l))), lineSep c = false := by
                            intro c hc
                            exact hsepline c
                              (mem_stripWs (List.mem_of_mem_tail
                                (mem_stripWs hc)))
                          refine ⟨[(.comment,
                            (if ib = true then spaces bi else []) ++ chars "! "
                              ++ stripWs (List.tail (stripWs (procLine l))))],
                            chunk_comment ib ht hsept, rfl, ?_, ?_⟩
                          · rw [show ([( LKind.comment,
                                (if ib = true then spaces bi else []) ++ chars "! "
                                  ++ stripWs (List.tail (stripWs (procLine l))))].map
                                Prod.snd) =
                              [(if ib = true then spaces bi else []) ++ chars "! "
                                ++ stripWs (List.tail (stripWs (procLine l)))]
                              from rfl,
                              filterMap_singleton, emitted_comment_keylen,
                              comment_keylen hsepl h4]
                          · intro e he
                            rcases List.mem_singleton.mp he with rfl
                            intro c hc
                            rcases List.mem_append.mp hc with hm | hm
                            · rcases List.mem_append.mp hm with hm2 | hm2
                              · by_cases hib : (ib = true)
                                · rw [if_pos hib] at hm2
                                  rw [mem_spaces hm2]; decide
                                · rw [if_neg hib] at hm2; cases hm2
                              · have : c ∈ ['!', ' '] := hm2
                                simp only [List.mem_cons, List.not_mem_nil,
                                  or_false] at this
                                rcases this with rfl | rfl <;> decide
                            · exact hsept c hm
                      | false =>
                          subst hkc
                          rw [if_neg (by simp)]
                          refine ⟨[], rfl, rfl, ?_, ?_⟩
                          · rw [show (([] : List (LKind × Str)).map Prod.snd) =
                              ([] : List Str) from rfl, comment_keylen hsepl h4]
                            rfl
                          · intro e he; cases he
                    · rw [if_neg h4] at hp
                      cases hf : format_line (procLine l) a bi tc kc with
                      | none => rw [hf] at hp; cases hp
                      | some fl =>
                          rw [hf, Option.map_some'] at hp
                          simp only [Option.some.injEq, Prod.mk.injEq] at hp
                          obtain ⟨rfl, rfl⟩ := hp
                          have hflsep : ∀ c ∈ fl, lineSep c = false :=
                            sep_free_format_line hf hsepline
                          unfold assignStable at hstl
                          rw [if_neg h1, if_neg h2, if_neg h3, if_neg h4, hf] at hstl
                          simp only [Bool.and_eq_true, decide_eq_true_eq] at hstl
                          obtain ⟨hs1, hs2⟩ := hstl
                          have hchunkP : processLine a bi tc kc kw ib fl =
                              some (ib, [(.assign, fl)]) := by
                            cases ib
                            · exact hs1
                            · exact hs2
                          have hf2 : format_line (procLine fl) a bi tc kc = some fl :=
                            processLine_assign hchunkP (List.mem_singleton.mpr rfl)
                          refine ⟨[(.assign, fl)], ?_, rfl, ?_, ?_⟩
                          · rw [show ([(LKind.assign, fl)].map Prod.snd) = [fl]
                              from rfl, nmlRun_singleton]
                            exact hchunkP
                          · rw [show ([(LKind.assign, fl)].map Prod.snd) = [fl]
                              from rfl, filterMap_singleton,
                              assign_keylen hf hf2 hflsep,
                              lineKeyLen_procLine hsepl]
                          · intro e he
                            rcases List.mem_singleton.mp he with rfl
                            exact hflsep

set_option maxHeartbeats 1000000 in
/-- Claim C1 as amended: format_nml is not idempotent in general, but it is
idempotent on every document whose lines all pass the per-line stability
check (assignStable) and whose output does not end in a kept blank line
other than the separator regenerated by a closing slash: rerunning
format_nml on the output returns the output unchanged. -/
theorem format_nml_idempotent_amended (content : Str) (eqo bi : Int)
    (tc kc kw : Bool) (ls : List Str)
    (hstable : (splitlines content).all
      (assignStable (find_longest_key content + eqo) bi tc kc kw) = true)
    (hls : format_nml_lines content eqo bi tc kc kw = some ls)
    (htail : ls.getLast? = some [] → ls.dropLast.getLast? = some ['/']) :
    format_nml content eqo bi tc kc kw = some (joinSep ['\n'] ls) ∧
    format_nml (joinSep ['\n'] ls) eqo bi tc kc kw = some (joinSep ['\n'] ls) := by
  constructor
  · rw [format_nml, hls, Option.map_some']
  · cases hrun : nmlRun (find_longest_key content + eqo) bi tc kc kw false
        (splitlines content) with
    | none =>
        rw [format_nml_lines, format_nml_tagged, hrun] at hls
        cases hls
    | some pq =>
        obtain ⟨ibf, touts⟩ := pq
        rw [format_nml_lines, format_nml_tagged, hrun, Option.map_some',
          Option.map_some', Option.some.injEq] at hls
        obtain ⟨⟨touts2, hrep, hmapeq⟩, hklEq, hsfOut⟩ :=
          nml_reproduce (find_longest_key content + eqo) bi tc kc kw
            (splitlines content) false ibf touts
            (fun l hl => splitlines_no_sep hl)
            (List.all_eq_true.mp hstable) hrun
        rw [hls] at hrep hmapeq hklEq hsfOut
        have hsplit : splitlines (joinSep ['\n'] ls) =
            if ls.getLast? = some [] then ls.dropLast else ls :=
          splitlines_joinSep ls hsfOut
        have hfl2 : find_longest_key (joinSep ['\n'] ls) =
            find_longest_key content := by
          rw [find_longest_key_eq_fold, find_longest_key_eq_fold, hsplit]
          by_cases hl : (ls.getLast? = some ([] : Str))
          · rw [if_pos hl]
            have hdec := getLast?_decomp hl
            have hfm : ls.filterMap lineKeyLen = ls.dropLast.filterMap lineKeyLen := by
              conv_lhs => rw [hdec]
              rw [List.filterMap_append]
              have : ([([] : Str)].filterMap lineKeyLen) = [] := by decide
              rw [this, List.append_nil]
            rw [← hfm, hklEq]
          · rw [if_neg hl, hklEq]
        rw [format_nml, format_nml_lines, format_nml_tagged, hfl2, hsplit]
        by_cases hl : (ls.getLast? = some ([] : Str))
        · rw [if_pos hl]
          have hdec := getLast?_decomp hl
          have hdec2 := getLast?_decomp (htail hl)
          -- split the reproduced run at the trailing blank line
          rw [hdec, nmlRun_append] at hrep
          cases hA : nmlRun (find_longest_key content + eqo) bi tc kc kw false
              ls.dropLast with
          | none => rw [hA] at hrep; cases hrep
          | some pA =>
              obtain ⟨ibA, oA⟩ := pA
              rw [hA, Option.some_bind] at hrep
              -- the state after the dropLast prefix is false: it ends with "/"
              have hibA : ibA = false := by
                rw [hdec2, nmlRun_append] at hA
                cases hX : nmlRun (find_longest_key content + eqo) bi tc kc kw false
                    ls.dropLast.dropLast with
                | none => rw [hX] at hA; cases hA
                | some pX =>
                    obtain ⟨ibX, oX⟩ := pX
                    rw [hX, Option.some_bind, nmlRun_singleton,
                      processLine_slash, Option.map_some', Option.some.injEq,
                      Prod.mk.injEq] at hA
                    exact hA.1.symm
              rw [hibA, nmlRun_singleton, processLine_empty, Bool.and_false] at hrep
              rw [if_neg (by exact Bool.false_ne_true)] at hrep
              rw [Option.map_some', Option.some.injEq, Prod.mk.injEq] at hrep
              obtain ⟨hibf, houts⟩ := hrep
              have hoA : oA = touts2 := by
                rw [← houts]
                simp
              simp only [Option.map_some']
              rw [hoA, hmapeq]
        · rw [if_neg hl, hrep]
          simp only [Option.map_some']
          rw [hmapeq]

/-- Counterexample to claim C1: format_nml is not idempotent.  A block
header followed by a kept blank line formats to a text ending in a
newline; splitlines drops that trailing empty line on the second pass, so
reformatting the output drops the blank line and changes the text. -/
theorem format_nml_not_idempotent_cex :
    format_nml (chars "&b\n\n") 5 2 true true true = some (chars "&b\n") ∧
    format_nml (chars "&b\n") 5 2 true true true = some (chars "&b") ∧
    chars "&b\n" ≠ chars "&b" := by decide

/-- Witness for C1 as amended: a one-assignment namelist block is stable
line by line, its output ends in the slash-generated separator, and a
second run of format_nml reproduces the output exactly. -/
theorem format_nml_idempotent_amended_witness :
    format_nml (chars "&nml\nx = 1\n/\n") 5 2 true true true =
      some (joinSep ['\n']
        [chars "&nml", chars "  x     = 1,", chars "/", []]) ∧
    format_nml (joinSep ['\n'] [chars "&nml", chars "  x     = 1,", chars "/", []])
      5 2 true true true =
      some (joinSep ['\n']
        [chars "&nml", chars "  x     = 1,", chars "/", []]) :=
  format_nml_idempotent_amended (chars "&nml\nx = 1\n/\n") 5 2 true true true
    [chars "&nml", chars "  x     = 1,", chars "/", []]
    (by decide) (by decide) (by decide)
